import Mathlib

/-!
Verification development for the RustRedis server sources.

The Rust sources are shallowly embedded: `Bytes` and `String` values become
lists of byte values (`List Nat`), `HashMap`/`HashSet` become association
lists / member lists, `Instant` becomes a `Nat` time-stamp passed explicitly
to every operation whose source calls `Instant::now()`, and fallible code
returns `Option`/`Except`.  Machine-integer parsing (`i64`/`isize`/`u64`/
`usize::from_str`) is modelled with `Int`/`Nat` plus explicit range checks,
mirroring the checked arithmetic of the Rust parsers.  The build is assumed
to be a release build where the distinction matters (wrapping casts); the
one place this shows up (negative bulk lengths in the frame decoder) is
commented at the definition.
-/

namespace RustRedis

/-- Bytes of a Rust `Bytes`/`String` value: a list of byte values. -/
abbrev RStr := List Nat

/-- ASCII uppercasing of one byte.  `str::to_uppercase` in the source performs
Unicode uppercasing, which agrees with this on ASCII; every command-name
comparison in the source is against an ASCII literal. -/
def upperByte (b : Nat) : Nat := if 97 ≤ b ∧ b ≤ 122 then b - 32 else b

/-- Models `str::to_uppercase` (ASCII fragment; see `upperByte`). -/
def asciiUpper (s : RStr) : RStr := s.map upperByte

/-! ## UTF-8 validity (Rust `std::str::from_utf8`) -/

/-- Continuation byte test for UTF-8 validation (`0x80..=0xBF`). -/
def utf8Cont (b : Nat) : Bool := 128 ≤ b && b ≤ 191

/-- Classify a UTF-8 lead byte: number of continuation bytes and the allowed
range of the first continuation byte; `none` for an invalid lead byte.
This is the RFC 3629 table used by Rust's UTF-8 validation (no surrogates,
no overlong forms, maximum U+10FFFF). -/
def utf8Hd (b : Nat) : Option (Nat × Nat × Nat) :=
  if b ≤ 127 then some (0, 0, 0)
  else if 194 ≤ b ∧ b ≤ 223 then some (1, 128, 191)
  else if b = 224 then some (2, 160, 191)
  else if (225 ≤ b ∧ b ≤ 236) ∨ b = 238 ∨ b = 239 then some (2, 128, 191)
  else if b = 237 then some (2, 128, 159)
  else if b = 240 then some (3, 144, 191)
  else if 241 ≤ b ∧ b ≤ 243 then some (3, 128, 191)
  else if b = 244 then some (3, 128, 143)
  else none

/-- UTF-8 validity of a byte sequence, as checked by `String::from_utf8` /
`std::str::from_utf8` in the source. -/
def utf8Valid : List Nat → Bool
  | [] => true
  | b :: rest =>
    match utf8Hd b, rest with
    | none, _ => false
    | some (0, _, _), r => utf8Valid r
    | some (1, lo, hi), b1 :: r => (lo ≤ b1 && b1 ≤ hi) && utf8Valid r
    | some (2, lo, hi), b1 :: b2 :: r =>
        (lo ≤ b1 && b1 ≤ hi) && utf8Cont b2 && utf8Valid r
    | some (3, lo, hi), b1 :: b2 :: b3 :: r =>
        (lo ≤ b1 && b1 ≤ hi) && utf8Cont b2 && utf8Cont b3 && utf8Valid r
    | some _, _ => false

/-- A sequence of ASCII bytes is valid UTF-8. -/
theorem utf8Valid_of_ascii : ∀ s : List Nat, (∀ b ∈ s, b ≤ 127) → utf8Valid s = true := by
  intro s
  induction s with
  | nil => intro _; rfl
  | cons b rest ih =>
    intro h
    have hb : b ≤ 127 := h b (List.mem_cons_self _ _)
    have hr := ih (fun x hx => h x (List.mem_cons_of_mem _ hx))
    rw [utf8Valid.eq_def]
    simp only [utf8Hd, if_pos hb]
    exact hr

/-- Valid UTF-8 sequences concatenate to a valid UTF-8 sequence. -/
theorem utf8Valid_append : ∀ a b : List Nat,
    utf8Valid a = true → utf8Valid b = true → utf8Valid (a ++ b) = true := by
  intro a
  induction a using utf8Valid.induct with
  | case1 =>
    intro c _ hc
    simpa using hc
  | case2 b rest hhd =>
    intro c ha _
    rw [utf8Valid.eq_def] at ha
    simp only [hhd] at ha
    exact absurd ha (by simp)
  | case3 b fst snd r hhd ih =>
    intro c ha hc
    rw [utf8Valid.eq_def] at ha
    simp only [hhd] at ha
    rw [List.cons_append, utf8Valid.eq_def]
    simp only [hhd]
    exact ih c ha hc
  | case4 b lo hi b1 r hhd ih =>
    intro c ha hc
    rw [utf8Valid.eq_def] at ha
    simp only [hhd] at ha
    rw [List.cons_append, List.cons_append, utf8Valid.eq_def]
    simp only [hhd]
    simp only [Bool.and_eq_true] at ha ⊢
    exact ⟨ha.1, ih c ha.2 hc⟩
  | case5 b lo hi b1 b2 r hhd ih =>
    intro c ha hc
    rw [utf8Valid.eq_def] at ha
    simp only [hhd] at ha
    rw [List.cons_append, List.cons_append, List.cons_append, utf8Valid.eq_def]
    simp only [hhd]
    simp only [Bool.and_eq_true] at ha ⊢
    exact ⟨⟨ha.1.1, ha.1.2⟩, ih c ha.2 hc⟩
  | case6 b lo hi b1 b2 b3 r hhd ih =>
    intro c ha hc
    rw [utf8Valid.eq_def] at ha
    simp only [hhd] at ha
    rw [List.cons_append, List.cons_append, List.cons_append, List.cons_append,
      utf8Valid.eq_def]
    simp only [hhd]
    simp only [Bool.and_eq_true] at ha ⊢
    exact ⟨ha.1, ih c ha.2 hc⟩
  | case7 b rest val h0 hhd h1 h2 h3 =>
    intro c ha _
    exfalso
    rw [utf8Valid.eq_def] at ha
    simp only [hhd] at ha
    simp at ha

/-! ## Decimal printing and parsing

`<int>.to_string()` on the printing side, `str::parse::<i64/isize/u64/usize>`
on the parsing side.  `digitsOf` takes its own argument as fuel so that it is
structurally recursive (kernel-reducible); `digitsOf_eq` recovers the natural
recursion. -/

/-- Fuel-driven decimal digit expansion (most significant digit first). -/
def digitsGo : Nat → Nat → List Nat
  | 0, _ => []
  | fuel + 1, n => if n < 10 then [48 + n] else digitsGo fuel (n / 10) ++ [48 + n % 10]

/-- ASCII decimal digits of `n`, most significant first (`Nat::to_string`). -/
def digitsOf (n : Nat) : List Nat := digitsGo (n + 1) n

theorem digitsGo_congr : ∀ n f1 f2 : Nat, n < f1 → n < f2 → digitsGo f1 n = digitsGo f2 n := by
  intro n
  induction n using Nat.strong_induction_on with
  | _ n ih =>
    intro f1 f2 h1 h2
    obtain ⟨g1, rfl⟩ : ∃ g, f1 = g + 1 := ⟨f1 - 1, by omega⟩
    obtain ⟨g2, rfl⟩ : ∃ g, f2 = g + 1 := ⟨f2 - 1, by omega⟩
    rw [digitsGo, digitsGo]
    by_cases h10 : n < 10
    · rw [if_pos h10, if_pos h10]
    · have hdiv : n / 10 < n := Nat.div_lt_self (by omega) (by omega)
      rw [if_neg h10, if_neg h10, ih (n / 10) hdiv g1 g2 (by omega) (by omega)]

/-- The natural recursion for `digitsOf`. -/
theorem digitsOf_eq (n : Nat) :
    digitsOf n = if n < 10 then [48 + n] else digitsOf (n / 10) ++ [48 + n % 10] := by
  by_cases h10 : n < 10
  · simp [digitsOf, digitsGo, h10]
  · have hdiv : n / 10 < n := Nat.div_lt_self (by omega) (by omega)
    rw [digitsOf, digitsGo, if_neg h10, if_neg h10,
      digitsGo_congr (n / 10) n (n / 10 + 1) (by omega) (by omega)]
    rfl

theorem digitsOf_ne_nil (n : Nat) : digitsOf n ≠ [] := by
  rw [digitsOf_eq]
  split <;> simp

/-- Every emitted digit byte is an ASCII digit (`48..=57`). -/
theorem digitsOf_mem_digit : ∀ n : Nat, ∀ d ∈ digitsOf n, 48 ≤ d ∧ d ≤ 57 := by
  intro n
  induction n using Nat.strong_induction_on with
  | _ n ih =>
    intro d hd
    rw [digitsOf_eq] at hd
    by_cases h10 : n < 10
    · rw [if_pos h10] at hd
      simp at hd
      omega
    · rw [if_neg h10] at hd
      have hn0 : 0 < n := by omega
      have hdiv : n / 10 < n := Nat.div_lt_self hn0 (by omega)
      rcases List.mem_append.mp hd with h | h
      · exact ih _ hdiv d h
      · simp at h
        have := Nat.mod_lt n (show 0 < 10 by omega)
        omega

/-- Decimal digit accumulation, the semantics of Rust's string-to-integer
parsers on a pure digit string. -/
def natFromDigits (ds : List Nat) : Nat := ds.foldl (fun a d => a * 10 + (d - 48)) 0

theorem natFromDigits_aux : ∀ n a : Nat,
    (digitsOf n).foldl (fun x d => x * 10 + (d - 48)) a =
      a * 10 ^ (digitsOf n).length + n := by
  intro n
  induction n using Nat.strong_induction_on with
  | _ n ih =>
    intro a
    rw [digitsOf_eq]
    by_cases h10 : n < 10
    · simp [if_pos h10, List.foldl]
    · have hn0 : 0 < n := by omega
      have hdiv : n / 10 < n := Nat.div_lt_self hn0 (by omega)
      rw [if_neg h10, List.foldl_append, ih _ hdiv a]
      simp only [List.foldl, List.length_append, List.length_singleton]
      have h48 : 48 + n % 10 - 48 = n % 10 := by omega
      rw [h48, pow_succ]
      have key : n / 10 * 10 + n % 10 = n := by omega
      calc (a * 10 ^ (digitsOf (n / 10)).length + n / 10) * 10 + n % 10
          = a * (10 ^ (digitsOf (n / 10)).length * 10) + (n / 10 * 10 + n % 10) := by ring
        _ = a * (10 ^ (digitsOf (n / 10)).length * 10) + n := by rw [key]

/-- Printing then accumulating digits is the identity. -/
theorem natFromDigits_digitsOf (n : Nat) : natFromDigits (digitsOf n) = n := by
  rw [natFromDigits, natFromDigits_aux]
  simp

def isDigitB (b : Nat) : Bool := 48 ≤ b && b ≤ 57

/-- Parse a non-empty all-digit string into a `Nat` (no sign handling). -/
def parseNatCore (ds : List Nat) : Option Nat :=
  if (!ds.isEmpty) && ds.all isDigitB then some (natFromDigits ds) else none

theorem parseNatCore_digitsOf (n : Nat) : parseNatCore (digitsOf n) = some n := by
  have h1 : (digitsOf n).isEmpty = false := by
    cases h : digitsOf n with
    | nil => exact absurd h (digitsOf_ne_nil n)
    | cons a l => rfl
  have h2 : (digitsOf n).all isDigitB = true := by
    rw [List.all_eq_true]
    intro d hd
    have := digitsOf_mem_digit n d hd
    simp [isDigitB]
    omega
  rw [parseNatCore, h1, h2]
  simp [natFromDigits_digitsOf]

/-- Signed decimal parsing with an inclusive range `[lo, hi]`, the semantics of
Rust's checked `str::parse` for a signed integer type: an optional single
`+`/`-` sign followed by one or more ASCII digits, failing on overflow. -/
def parseIntSigned (lo hi : Int) (s : List Nat) : Option Int :=
  match s with
  | 43 :: ds => (parseNatCore ds).bind fun n => if (n : Int) ≤ hi then some n else none
  | 45 :: ds =>
      (parseNatCore ds).bind fun n => if lo ≤ -(n : Int) then some (-(n : Int)) else none
  | ds => (parseNatCore ds).bind fun n => if (n : Int) ≤ hi then some n else none

/-- `str::parse::<i64>` (and `::<isize>` on a 64-bit target). -/
def parseI64 (s : List Nat) : Option Int := parseIntSigned (-(2 ^ 63)) (2 ^ 63 - 1) s

/-- Unsigned decimal parsing with inclusive upper bound `hi`: an optional `+`
sign followed by digits; a `-` sign always fails for unsigned types. -/
def parseUnsignedN (hi : Nat) (s : List Nat) : Option Nat :=
  match s with
  | 43 :: ds => (parseNatCore ds).bind fun n => if n ≤ hi then some n else none
  | 45 :: _ => none
  | ds => (parseNatCore ds).bind fun n => if n ≤ hi then some n else none

/-- `str::parse::<u64>` / `::<usize>` on a 64-bit target. -/
def parseU64 (s : List Nat) : Option Nat := parseUnsignedN (2 ^ 64 - 1) s

/-- `<i64 value>.to_string()` as bytes. -/
def intToDecimal (n : Int) : List Nat :=
  if n < 0 then 45 :: digitsOf (-n).toNat else digitsOf n.toNat

theorem digitsOf_head_digit (n : Nat) :
    ∃ d ds, digitsOf n = d :: ds ∧ 48 ≤ d ∧ d ≤ 57 := by
  cases h : digitsOf n with
  | nil => exact absurd h (digitsOf_ne_nil n)
  | cons d ds =>
    have hd := digitsOf_mem_digit n d (by rw [h]; exact List.mem_cons_self _ _)
    exact ⟨d, ds, rfl, hd.1, hd.2⟩

theorem parseIntSigned_digitsOf (lo hi : Int) (n : Nat) (h : (n : Int) ≤ hi) :
    parseIntSigned lo hi (digitsOf n) = some ((n : Int)) := by
  obtain ⟨d, ds, heq, hd1, hd2⟩ := digitsOf_head_digit n
  rw [heq]
  have hcore : parseNatCore (d :: ds) = some n := by rw [← heq]; exact parseNatCore_digitsOf n
  rw [parseIntSigned.eq_def]
  split
  · rename_i heq2
    injection heq2 with hh _
    omega
  · rename_i heq2
    injection heq2 with hh _
    omega
  · rw [hcore]
    simp [h]

/-- Printing an in-range `i64` and re-parsing it round-trips. -/
theorem parseI64_intToDecimal (n : Int) (h1 : -(2 ^ 63) ≤ n) (h2 : n ≤ 2 ^ 63 - 1) :
    parseI64 (intToDecimal n) = some n := by
  rw [parseI64, intToDecimal]
  by_cases hneg : n < 0
  · rw [if_pos hneg]
    have harm : parseIntSigned (-(2 ^ 63)) (2 ^ 63 - 1) (45 :: digitsOf (-n).toNat) =
        (parseNatCore (digitsOf (-n).toNat)).bind
          (fun m => if -(2 ^ 63) ≤ -((m : Nat) : Int) then some (-((m : Nat) : Int))
            else none) := rfl
    rw [harm, parseNatCore_digitsOf]
    have hcast : (((-n).toNat : Int)) = -n := Int.toNat_of_nonneg (by omega)
    simp only [Option.some_bind, hcast]
    rw [if_pos (by omega)]
    rw [neg_neg]
  · rw [if_neg hneg]
    have hcast : ((n.toNat : Int)) = n := Int.toNat_of_nonneg (by omega)
    have := parseIntSigned_digitsOf (-(2 ^ 63)) (2 ^ 63 - 1) n.toNat (by omega)
    rw [this, hcast]

theorem parseUnsignedN_digitsOf (hi n : Nat) (h : n ≤ hi) :
    parseUnsignedN hi (digitsOf n) = some n := by
  obtain ⟨d, ds, heq, hd1, hd2⟩ := digitsOf_head_digit n
  rw [heq]
  have hcore : parseNatCore (d :: ds) = some n := by rw [← heq]; exact parseNatCore_digitsOf n
  rw [parseUnsignedN.eq_def]
  split
  · rename_i heq2
    injection heq2 with hh _
    omega
  · rename_i heq2
    injection heq2 with hh _
    omega
  · rw [hcore]
    simp [h]

/-! ## Frames (`src/frame.rs`)

`Frame` mirrors the Rust enum; `Simple`/`Error` hold the bytes of the Rust
`String` (always valid UTF-8 in the running program), `Bulk` holds raw bytes,
`Integer` holds the `i64` value. -/

inductive Frame where
  | simple (s : RStr)
  | error (s : RStr)
  | integer (n : Int)
  | bulk (b : RStr)
  | array (items : List Frame)
  | null

/-! ### Encoder (`Aof::serialize_frame` / `Aof::write_frame_recursive`,
`src/persistence.rs`) -/

mutual

/-- `Aof::write_frame_recursive`: RESP encoding of one frame.  `Null`
serializes as `$-1\x0d\x0a`. -/
def encodeFrame : Frame → List Nat
  | .simple s => 43 :: (s ++ [13, 10])
  | .error s => 45 :: (s ++ [13, 10])
  | .integer n => 58 :: (intToDecimal n ++ [13, 10])
  | .bulk d => 36 :: (digitsOf d.length ++ [13, 10] ++ d ++ [13, 10])
  | .null => [36, 45, 49, 13, 10]
  | .array items => 42 :: (digitsOf items.length ++ [13, 10] ++ encodeFrames items)

/-- Child frames of an array, encoded in order. -/
def encodeFrames : List Frame → List Nat
  | [] => []
  | f :: fs => encodeFrame f ++ encodeFrames fs

end

mutual

/-- Representation invariant of a `Frame` produced by the Rust program:
`Simple`/`Error` texts are valid UTF-8 without CR or LF (the wire format's
stated precondition), integers fit in `i64`, byte payloads are bytes, and
lengths fit in `i64` (they are `usize` values bounded by addressable
memory). -/
def Frame.wf : Frame → Bool
  | .simple s => s.all (· < 256) && !s.contains 13 && !s.contains 10 && utf8Valid s
  | .error s => s.all (· < 256) && !s.contains 13 && !s.contains 10 && utf8Valid s
  | .integer n => decide (-(2 ^ 63) ≤ n) && decide (n ≤ 2 ^ 63 - 1)
  | .bulk b => b.all (· < 256) && decide ((b.length : Int) ≤ 2 ^ 63 - 1)
  | .null => true
  | .array items => decide ((items.length : Int) ≤ 2 ^ 63 - 1) && Frame.wfList items

/-- All members of a frame list are well-formed. -/
def Frame.wfList : List Frame → Bool
  | [] => true
  | f :: fs => f.wf && Frame.wfList fs

end

/-! ### Decoder (`Frame::parse`, `check_complete`, `parse_frame`,
`src/frame.rs`)

The cursor over the read buffer is modelled as the list of not-yet-visited
bytes; each primitive returns its result together with the remaining bytes.
Error payload strings of the source are elided (`PErr` carries no message).
`panicked` marks the executions in which the Rust code panics instead of
returning: both panic sites stem from a negative bulk/array count other than
`-1` being cast to `usize` (`len as usize + 2` in `check_complete`,
`Vec::with_capacity(count as usize)` and `read_n_bytes(cursor, len as usize)`
in `parse_frame`); in a debug build the cast value overflows an addition and
in a release build the wrapped offsets make a slice panic or a capacity
overflow panic, so every such execution panics before producing a frame. -/

inductive PErr where
  | incomplete
  | invalid
  | panicked
deriving DecidableEq

/-- Index of the first CRLF pair, as scanned by `read_until_crlf` /
`read_line`: the first `i` with `b[i] = 13`, `b[i+1] = 10`, both in range. -/
def findCrlf : List Nat → Option Nat
  | 13 :: 10 :: _ => some 0
  | _ :: rest => (findCrlf rest).map (· + 1)
  | [] => none

/-- `read_line`: the bytes before the first CRLF, and the bytes after it. -/
def readLine (b : List Nat) : Option (List Nat × List Nat) :=
  match findCrlf b with
  | some i => some (b.take i, b.drop (i + 2))
  | none => none

theorem findCrlf_decomp : ∀ b i, findCrlf b = some i →
    b = b.take i ++ 13 :: 10 :: b.drop (i + 2) := by
  intro b
  induction b using findCrlf.induct with
  | case1 rest =>
    intro i h
    have h0 : i = 0 := by
      have : findCrlf (13 :: 10 :: rest) = some 0 := rfl
      rw [this] at h
      exact (Option.some.inj h).symm
    subst h0
    simp
  | case2 a rest hne ih =>
    intro i h
    have hred : findCrlf (a :: rest) = (findCrlf rest).map (· + 1) := by
      rw [findCrlf.eq_def]
      split
      · rename_i tl heq
        have h1 : a = 13 := (List.cons.inj heq).1
        have h2 : rest = 10 :: tl := (List.cons.inj heq).2
        exact (hne tl h1 h2).elim
      · rename_i x xs heq
        rw [(List.cons.inj heq).2]
      · rename_i heq
        exact absurd heq (by simp)
    rw [hred] at h
    rcases hr : findCrlf rest with _ | j
    · rw [hr] at h; simp at h
    · rw [hr] at h
      simp only [Option.map] at h
      have hi : i = j + 1 := (Option.some.inj h).symm
      subst hi
      have hrec := ih j hr
      have ht : (a :: rest).take (j + 1) = a :: rest.take j := List.take_succ_cons
      have hd : (a :: rest).drop (j + 1 + 2) = rest.drop (j + 2) := by
        show (a :: rest).drop (j + 3) = rest.drop (j + 2)
        rw [List.drop_succ_cons]
      rw [ht, hd, List.cons_append]
      exact congrArg (a :: ·) hrec
  | case3 =>
    intro i h
    have hnil : findCrlf ([] : List Nat) = none := rfl
    rw [hnil] at h
    cases h

theorem readLine_decomp {b l r : List Nat} (h : readLine b = some (l, r)) :
    b = l ++ 13 :: 10 :: r := by
  rw [readLine] at h
  rcases hf : findCrlf b with _ | i
  · rw [hf] at h; cases h
  · rw [hf] at h
    have h1 : b.take i = l := (Prod.mk.inj (Option.some.inj h)).1
    have h2 : b.drop (i + 2) = r := (Prod.mk.inj (Option.some.inj h)).2
    rw [← h1, ← h2]
    exact findCrlf_decomp b i hf

theorem readLine_length {b l r : List Nat} (h : readLine b = some (l, r)) :
    b.length = l.length + 2 + r.length := by
  have := readLine_decomp h
  rw [this]
  simp
  omega

/-- `read_decimal`: read one line, require it to be UTF-8, parse it as `i64`. -/
def readDecimal (b : List Nat) : Except PErr (Int × List Nat) :=
  match readLine b with
  | none => .error .incomplete
  | some (line, rest) =>
    if utf8Valid line then
      match parseI64 line with
      | some n => .ok (n, rest)
      | none => .error .invalid
    else .error .invalid

theorem readDecimal_length {b : List Nat} {n : Int} {r : List Nat}
    (h : readDecimal b = .ok (n, r)) : r.length + 2 ≤ b.length := by
  rw [readDecimal] at h
  rcases hl : readLine b with _ | ⟨line, rest⟩
  · rw [hl] at h; cases h
  · rw [hl] at h
    dsimp only at h
    have hlen := readLine_length hl
    have hr : rest = r := by
      by_cases hu : utf8Valid line = true
      · rw [if_pos hu] at h
        rcases hp : parseI64 line with _ | m
        · rw [hp] at h; cases h
        · rw [hp] at h
          exact (Prod.mk.inj (Except.ok.inj h)).2
      · rw [if_neg hu] at h; cases h
    subst hr
    omega

mutual

/-- `check_complete`: scan one complete frame, returning the remaining bytes
(the length bound on the result stands in for the cursor position and feeds
the termination argument). -/
def checkComplete : (b : List Nat) → Except PErr { r : List Nat // r.length ≤ b.length }
  | [] => .error .incomplete
  | t :: rest =>
    if t = 43 ∨ t = 45 ∨ t = 58 then
      -- '+', '-', ':': read_until_crlf
      match h : readLine rest with
      | none => .error .incomplete
      | some (_, r) =>
        .ok ⟨r, by
          have := readLine_length h
          simp only [List.length_cons]
          omega⟩
    else if t = 36 then
      -- '$': bulk; skip(len as usize + 2), panicking for len ≤ -2 (see `PErr`)
      match h : readDecimal rest with
      | .error e => .error e
      | .ok (len, r) =>
        if len = -1 then
          .ok ⟨r, by
            have := readDecimal_length h
            simp only [List.length_cons]
            omega⟩
        else if len < 0 then .error .panicked
        else if len.toNat + 2 ≤ r.length then
          .ok ⟨r.drop (len.toNat + 2), by
            have h1 := readDecimal_length h
            simp only [List.length_drop, List.length_cons]
            omega⟩
        else .error .incomplete
    else if t = 42 then
      -- '*': array; `for _ in 0..count` runs `max count 0` iterations
      match h : readDecimal rest with
      | .error e => .error e
      | .ok (cnt, r) =>
        if cnt = -1 then
          .ok ⟨r, by
            have := readDecimal_length h
            simp only [List.length_cons]
            omega⟩
        else
          match checkN cnt.toNat r with
          | .error e => .error e
          | .ok ⟨r2, hr⟩ =>
            .ok ⟨r2, by
              have := readDecimal_length h
              simp only [List.length_cons]
              omega⟩
    else .error .invalid
termination_by b => (b.length, 0)
decreasing_by
  have := readDecimal_length h
  apply Prod.Lex.left
  simp only [List.length_cons]
  omega

/-- The `for _ in 0..count { check_complete(cursor)? }` loop. -/
def checkN : (n : Nat) → (b : List Nat) → Except PErr { r : List Nat // r.length ≤ b.length }
  | 0, b => .ok ⟨b, le_refl _⟩
  | n + 1, b =>
    match checkComplete b with
    | .error e => .error e
    | .ok ⟨r, h⟩ =>
      match checkN n r with
      | .error e => .error e
      | .ok ⟨r2, h2⟩ => .ok ⟨r2, le_trans h2 h⟩
termination_by n b => (b.length, n + 1)
decreasing_by
  · simp_wf
    apply Prod.Lex.right
    omega
  · simp_wf
    rcases Nat.lt_or_ge r.length b.length with hlt | _
    · exact Prod.Lex.left _ _ hlt
    · have heq : r.length = b.length := by omega
      rw [heq]
      apply Prod.Lex.right
      omega

end

mutual

/-- `parse_frame`: build the `Frame` for one complete frame.  Mirrors
`check_complete` byte-for-byte; the panicking executions for counts `≤ -2`
are the `with_capacity` / `read_n_bytes` panics described at `PErr`. -/
def parseFrame : (b : List Nat) → Except PErr (Frame × { r : List Nat // r.length ≤ b.length })
  | [] => .error .incomplete
  | t :: rest =>
    if t = 43 then
      -- '+': Simple, requires UTF-8
      match h : readLine rest with
      | none => .error .incomplete
      | some (line, r) =>
        if utf8Valid line then
          .ok (.simple line, ⟨r, by
            have := readLine_length h
            simp only [List.length_cons]
            omega⟩)
        else .error .invalid
    else if t = 45 then
      -- '-': Error, requires UTF-8
      match h : readLine rest with
      | none => .error .incomplete
      | some (line, r) =>
        if utf8Valid line then
          .ok (.error line, ⟨r, by
            have := readLine_length h
            simp only [List.length_cons]
            omega⟩)
        else .error .invalid
    else if t = 58 then
      -- ':': Integer
      match h : readDecimal rest with
      | .error e => .error e
      | .ok (n, r) =>
        .ok (.integer n, ⟨r, by
          have := readDecimal_length h
          simp only [List.length_cons]
          omega⟩)
    else if t = 36 then
      -- '$': Bulk / Null; read_n_bytes(len as usize) then skip(2)
      match h : readDecimal rest with
      | .error e => .error e
      | .ok (len, r) =>
        if len = -1 then
          .ok (.null, ⟨r, by
            have := readDecimal_length h
            simp only [List.length_cons]
            omega⟩)
        else if len < 0 then .error .panicked
        else if len.toNat + 2 ≤ r.length then
          .ok (.bulk (r.take len.toNat), ⟨(r.drop len.toNat).drop 2, by
            have := readDecimal_length h
            simp only [List.length_drop, List.length_cons]
            omega⟩)
        else .error .incomplete
    else if t = 42 then
      -- '*': Array / Null; Vec::with_capacity(count as usize) then the loop
      match h : readDecimal rest with
      | .error e => .error e
      | .ok (cnt, r) =>
        if cnt = -1 then
          .ok (.null, ⟨r, by
            have := readDecimal_length h
            simp only [List.length_cons]
            omega⟩)
        else if cnt < 0 then .error .panicked
        else
          match parseN cnt.toNat r with
          | .error e => .error e
          | .ok (fs, ⟨r2, hr⟩) =>
            .ok (.array fs, ⟨r2, by
              have := readDecimal_length h
              simp only [List.length_cons]
              omega⟩)
    else .error .invalid
termination_by b => (b.length, 0)
decreasing_by
  have := readDecimal_length h
  apply Prod.Lex.left
  simp only [List.length_cons]
  omega

/-- The `for _ in 0..count { frames.push(parse_frame(cursor)?) }` loop. -/
def parseN : (n : Nat) → (b : List Nat) →
    Except PErr (List Frame × { r : List Nat // r.length ≤ b.length })
  | 0, b => .ok ([], ⟨b, le_refl _⟩)
  | n + 1, b =>
    match parseFrame b with
    | .error e => .error e
    | .ok (f, ⟨r, h⟩) =>
      match parseN n r with
      | .error e => .error e
      | .ok (fs, ⟨r2, h2⟩) => .ok (f :: fs, ⟨r2, le_trans h2 h⟩)
termination_by n b => (b.length, n + 1)
decreasing_by
  · apply Prod.Lex.right
    omega
  · rcases Nat.lt_or_ge r.length b.length with hlt | _
    · exact Prod.Lex.left _ _ hlt
    · have heq : r.length = b.length := by omega
      rw [heq]
      apply Prod.Lex.right
      omega

end

/-- Decoder outcome of `Frame::parse` on one buffer. -/
inductive ParseOutcome where
  | frame (f : Frame) (rest : List Nat)
  | incomplete
  | invalid
  | panicked

/-- `Frame::parse`, with the buffer made explicit: runs `check_complete` on a
cursor; on success re-parses from position 0 with `parse_frame` and advances
the buffer by the bytes `check_complete` consumed (`buf.advance(len)`).  On
`Incomplete` the source returns `Ok(None)` and on `Invalid` it returns `Err`;
in both cases the buffer is not advanced, which is why those outcomes carry
the input buffer unchanged. -/
def parseBuf (buf : List Nat) : ParseOutcome × List Nat :=
  match checkComplete buf with
  | .error .incomplete => (.incomplete, buf)
  | .error .invalid => (.invalid, buf)
  | .error .panicked => (.panicked, buf)
  | .ok ⟨r, _⟩ =>
    match parseFrame buf with
    | .ok (f, _) => (.frame f r, r)
    | .error .incomplete => (.incomplete, buf)
    | .error .invalid => (.invalid, buf)
    | .error .panicked => (.panicked, buf)

/-- The outcome component of `Frame::parse`. -/
def Frame.parse (buf : List Nat) : ParseOutcome := (parseBuf buf).1

/-! ## The keyspace (`src/db.rs`)

`HashMap`s become association lists with unique keys (the Rust map's
iteration order is unspecified, so list order carries no meaning);
`HashSet<String>` becomes an insertion-ordered duplicate-free list.
Operations that call `Instant::now()` in the source take `now : Nat`. -/

inductive Value where
  | str (b : RStr)
  | list (items : List RStr)
  | set (members : List RStr)
  | hash (fields : List (RStr × RStr))
deriving DecidableEq

/-- `Value::type_name`. -/
def Value.typeName : Value → String
  | .str _ => "string"
  | .list _ => "list"
  | .set _ => "set"
  | .hash _ => "hash"

/-- A stored record: value plus optional absolute expiry instant. -/
structure Entry where
  value : Value
  expiresAt : Option Nat
deriving DecidableEq

/-- The keyspace `HashMap<String, Entry>`. -/
abbrev DbState := List (RStr × Entry)

/-- `HashMap::get`. -/
def mapGet {α : Type} (k : RStr) : List (RStr × α) → Option α
  | [] => none
  | (k2, v) :: rest => if k2 = k then some v else mapGet k rest

/-- `HashMap::insert`: replace in place, or append a new binding. -/
def mapInsert {α : Type} (k : RStr) (v : α) : List (RStr × α) → List (RStr × α)
  | [] => [(k, v)]
  | (k2, v2) :: rest =>
    if k2 = k then (k2, v) :: rest else (k2, v2) :: mapInsert k v rest

/-- `HashMap::remove` (callers use the old value only through `is_some`). -/
def mapRemove {α : Type} (k : RStr) : List (RStr × α) → List (RStr × α)
  | [] => []
  | (k2, v2) :: rest => if k2 = k then rest else (k2, v2) :: mapRemove k rest

/-- `Db::read_string`: expiry check (removing an expired entry), then the
type match. -/
def readString (s : DbState) (k : RStr) (now : Nat) : Option RStr × DbState :=
  match mapGet k s with
  | none => (none, s)
  | some e =>
    match e.expiresAt with
    | some t =>
      if t ≤ now then (none, mapRemove k s)
      else (match e.value with | .str b => some b | _ => none, s)
    | none => (match e.value with | .str b => some b | _ => none, s)

/-- `Db::write_string`. -/
def writeString (s : DbState) (k : RStr) (v : RStr) (expiresAt : Option Nat) : DbState :=
  mapInsert k ⟨.str v, expiresAt⟩ s

/-- `Db::get_type`: no expiry check, no mutation. -/
def getType (s : DbState) (k : RStr) : Option String :=
  (mapGet k s).map (fun e => e.value.typeName)

/-- `Db::exists`: expiry check with removal. -/
def existsDb (s : DbState) (k : RStr) (now : Nat) : Bool × DbState :=
  match mapGet k s with
  | none => (false, s)
  | some e =>
    match e.expiresAt with
    | some t => if t ≤ now then (false, mapRemove k s) else (true, s)
    | none => (true, s)

/-- `Db::delete`: `entries.remove(key).is_some()`, no expiry check. -/
def deleteDb (s : DbState) (k : RStr) : Bool × DbState :=
  ((mapGet k s).isSome, mapRemove k s)

/-- The `for value in values.into_iter().rev() { list.push_front(value) }`
loop of `Db::lpush`. -/
def pushFrontAll (values : List RStr) (d : List RStr) : List RStr :=
  values.reverse.foldl (fun dq v => v :: dq) d

/-- The `for value in values { list.push_back(value) }` loop of `Db::rpush`. -/
def pushBackAll (values : List RStr) (d : List RStr) : List RStr :=
  values.foldl (fun dq v => dq ++ [v]) d

/-- `Db::lpush`: get-or-insert an empty list entry, then push each value to
the front in reversed argument order; wrong type returns 0 untouched. -/
def lpush (s : DbState) (k : RStr) (values : List RStr) : Nat × DbState :=
  match mapGet k s with
  | some e =>
    match e.value with
    | .list d =>
      let d2 := pushFrontAll values d
      (d2.length, mapInsert k ⟨.list d2, e.expiresAt⟩ s)
    | _ => (0, s)
  | none =>
    let d2 := pushFrontAll values []
    (d2.length, mapInsert k ⟨.list d2, none⟩ s)

/-- `Db::rpush`. -/
def rpush (s : DbState) (k : RStr) (values : List RStr) : Nat × DbState :=
  match mapGet k s with
  | some e =>
    match e.value with
    | .list d =>
      let d2 := pushBackAll values d
      (d2.length, mapInsert k ⟨.list d2, e.expiresAt⟩ s)
    | _ => (0, s)
  | none =>
    let d2 := pushBackAll values []
    (d2.length, mapInsert k ⟨.list d2, none⟩ s)

/-- `Db::lpop`: `pop_front` on an existing list entry; the entry stays even
when the pop empties the list. -/
def lpop (s : DbState) (k : RStr) : Option RStr × DbState :=
  match mapGet k s with
  | none => (none, s)
  | some e =>
    match e.value with
    | .list [] => (none, s)
    | .list (v :: d) => (some v, mapInsert k ⟨.list d, e.expiresAt⟩ s)
    | _ => (none, s)

/-- `Db::rpop`: `pop_back`. -/
def rpop (s : DbState) (k : RStr) : Option RStr × DbState :=
  match mapGet k s with
  | none => (none, s)
  | some e =>
    match e.value with
    | .list d =>
      match d.getLast? with
      | none => (none, s)
      | some v => (some v, mapInsert k ⟨.list d.dropLast, e.expiresAt⟩ s)
    | _ => (none, s)

/-- `Db::lrange`.  The index arithmetic is over `isize`; the `if`/`else`
chain keeps both resolved bounds non-negative before the `as usize` casts.
(`stop + 1` would overflow `isize` only at `stop = isize::MAX`, where the
release-build wrap happens to produce the same returned slice.) -/
def lrange (s : DbState) (k : RStr) (start stop : Int) : Option (List RStr) :=
  match mapGet k s with
  | none => none
  | some e =>
    match e.value with
    | .list d =>
      let len : Int := d.length
      let start2 : Nat := (if start < 0 then max (len + start) 0 else min start len).toNat
      let stop2 : Nat := (if stop < 0 then max (len + stop) (-1) + 1 else min (stop + 1) len).toNat
      if start2 ≥ stop2 then some []
      else some ((d.drop start2).take (stop2 - start2))
    | _ => none

/-- `Db::llen`. -/
def llen (s : DbState) (k : RStr) : Option Nat :=
  (mapGet k s).bind fun e =>
    match e.value with
    | .list d => some d.length
    | _ => none

/-- `HashSet::insert`: true iff the member was new. -/
def setInsert (m : RStr) (xs : List RStr) : Bool × List RStr :=
  if xs.contains m then (false, xs) else (true, xs ++ [m])

/-- `HashSet::remove`: true iff the member was present. -/
def setRemove (m : RStr) (xs : List RStr) : Bool × List RStr :=
  if xs.contains m then (true, xs.erase m) else (false, xs)

/-- The counting insert loop of `Db::sadd`. -/
def saddAll (members : List RStr) (xs : List RStr) : Nat × List RStr :=
  members.foldl
    (fun acc m =>
      let r := setInsert m acc.2
      (acc.1 + (if r.1 then 1 else 0), r.2))
    (0, xs)

/-- The counting remove loop of `Db::srem`. -/
def sremAll (members : List RStr) (xs : List RStr) : Nat × List RStr :=
  members.foldl
    (fun acc m =>
      let r := setRemove m acc.2
      (acc.1 + (if r.1 then 1 else 0), r.2))
    (0, xs)

/-- `Db::sadd`: get-or-insert an empty set entry, then insert members. -/
def sadd (s : DbState) (k : RStr) (members : List RStr) : Nat × DbState :=
  match mapGet k s with
  | some e =>
    match e.value with
    | .set xs =>
      let r := saddAll members xs
      (r.1, mapInsert k ⟨.set r.2, e.expiresAt⟩ s)
    | _ => (0, s)
  | none =>
    let r := saddAll members []
    (r.1, mapInsert k ⟨.set r.2, none⟩ s)

/-- `Db::srem`: removes members of an existing set entry; the entry stays
even when the removal empties the set. -/
def srem (s : DbState) (k : RStr) (members : List RStr) : Nat × DbState :=
  match mapGet k s with
  | none => (0, s)
  | some e =>
    match e.value with
    | .set xs =>
      let r := sremAll members xs
      (r.1, mapInsert k ⟨.set r.2, e.expiresAt⟩ s)
    | _ => (0, s)

/-- `Db::smembers`. -/
def smembers (s : DbState) (k : RStr) : Option (List RStr) :=
  (mapGet k s).bind fun e =>
    match e.value with
    | .set xs => some xs
    | _ => none

/-- `Db::sismember`. -/
def sismember (s : DbState) (k : RStr) (m : RStr) : Bool :=
  match mapGet k s with
  | none => false
  | some e =>
    match e.value with
    | .set xs => xs.contains m
    | _ => false

/-- `Db::scard`. -/
def scard (s : DbState) (k : RStr) : Nat :=
  match mapGet k s with
  | none => 0
  | some e =>
    match e.value with
    | .set xs => xs.length
    | _ => 0

/-- `Db::hset`: get-or-insert an empty hash entry, then
`hash.insert(field, value).is_none()`. -/
def hset (s : DbState) (k : RStr) (f : RStr) (v : RStr) : Bool × DbState :=
  match mapGet k s with
  | some e =>
    match e.value with
    | .hash h =>
      ((mapGet f h).isNone, mapInsert k ⟨.hash (mapInsert f v h), e.expiresAt⟩ s)
    | _ => (false, s)
  | none =>
    (true, mapInsert k ⟨.hash (mapInsert f v []), none⟩ s)

/-- `Db::hget`. -/
def hget (s : DbState) (k : RStr) (f : RStr) : Option RStr :=
  (mapGet k s).bind fun e =>
    match e.value with
    | .hash h => mapGet f h
    | _ => none

/-- `Db::hgetall`. -/
def hgetall (s : DbState) (k : RStr) : Option (List (RStr × RStr)) :=
  (mapGet k s).bind fun e =>
    match e.value with
    | .hash h => some h
    | _ => none

/-- The counting delete loop of `Db::hdel`. -/
def hdelAll (fields : List RStr) (h : List (RStr × RStr)) : Nat × List (RStr × RStr) :=
  fields.foldl
    (fun acc f =>
      if (mapGet f acc.2).isSome then (acc.1 + 1, mapRemove f acc.2) else acc)
    (0, h)

/-- `Db::hdel`: deletes fields of an existing hash entry; the entry stays
even when the deletion empties the hash. -/
def hdel (s : DbState) (k : RStr) (fields : List RStr) : Nat × DbState :=
  match mapGet k s with
  | none => (0, s)
  | some e =>
    match e.value with
    | .hash h =>
      let r := hdelAll fields h
      (r.1, mapInsert k ⟨.hash r.2, e.expiresAt⟩ s)
    | _ => (0, s)

/-- `Db::hexists`. -/
def hexists (s : DbState) (k : RStr) (f : RStr) : Bool :=
  match mapGet k s with
  | none => false
  | some e =>
    match e.value with
    | .hash h => (mapGet f h).isSome
    | _ => false

/-- `Db::hlen`. -/
def hlen (s : DbState) (k : RStr) : Nat :=
  match mapGet k s with
  | none => 0
  | some e =>
    match e.value with
    | .hash h => h.length
    | _ => 0

/-- Modelled from the spec: `Db::flushdb` ("removes everything").  The
function is called by the command layer and the tests, but its body is not
among the given sources. -/
def flushdb (_s : DbState) : DbState := []

/-- Modelled from the spec: `Db::dbsize` ("count"; "does not lazy-sweep").
Called by the command layer; body not among the given sources. -/
def dbsize (s : DbState) : Nat := s.length

/-- One character-class member check for the glob matcher: `a-b` ranges and
single bytes. -/
def inClass : List Nat → Nat → Bool
  | a :: 45 :: b :: rest, c => (a ≤ c && c ≤ b) || inClass rest c
  | a :: rest, c => (a = c) || inClass rest c
  | [], _ => false

/-- Class body of a `[...]` glob pattern: bytes up to the closing `]`
(backslash escapes consumed), and the remaining pattern. -/
def classBody : List Nat → Option (List Nat × List Nat)
  | [] => none
  | 93 :: rest => some ([], rest)
  | 92 :: x :: rest => (classBody rest).map (fun p => (x :: p.1, p.2))
  | a :: rest => (classBody rest).map (fun p => (a :: p.1, p.2))

theorem classBody_length : ∀ l b r, classBody l = some (b, r) → r.length < l.length := by
  intro l
  induction l using classBody.induct with
  | case1 =>
    intro b r h
    cases h
  | case2 rest =>
    intro b r h
    have : classBody (93 :: rest) = some ([], rest) := rfl
    rw [this] at h
    have := (Prod.mk.inj (Option.some.inj h)).2
    subst this
    simp
  | case3 x rest ih =>
    intro b r h
    have hred : classBody (92 :: x :: rest) =
        (classBody rest).map (fun p => (x :: p.1, p.2)) := rfl
    rw [hred] at h
    rcases hc : classBody rest with _ | ⟨b2, r2⟩
    · rw [hc] at h; cases h
    · rw [hc] at h
      simp only [Option.map] at h
      have hr : r2 = r := (Prod.mk.inj (Option.some.inj h)).2
      subst hr
      have := ih b2 _ hc
      simp only [List.length_cons]
      omega
  | case4 a rest hne93 hne92 ih =>
    intro b r h
    have hred : classBody (a :: rest) = (classBody rest).map (fun p => (a :: p.1, p.2)) := by
      rw [classBody.eq_def]
      split
      · rename_i heq; cases heq
      · rename_i heq
        exact absurd (List.cons.inj heq).1 (by intro hh; exact hne93 hh)
      · rename_i x2 rest2 heq
        exact absurd heq
          (by intro hh; exact hne92 x2 rest2 (List.cons.inj hh).1 (List.cons.inj hh).2)
      · rename_i a2 rest2 heq
        obtain ⟨h1, h2⟩ := List.cons.inj heq
        rw [← h1, ← h2]
    rw [hred] at h
    rcases hc : classBody rest with _ | ⟨b2, r2⟩
    · rw [hc] at h; cases h
    · rw [hc] at h
      simp only [Option.map] at h
      have hr : r2 = r := (Prod.mk.inj (Option.some.inj h)).2
      subst hr
      have := ih b2 _ hc
      simp only [List.length_cons]
      omega

/-- Modelled from the spec: the `Db::keys` glob matcher (`*` any run, `?`
any one byte, `[...]`/`[^...]` classes with `-` ranges, `\x` escape).
`Db::keys` is called by the command layer and the tests, but its body is not
among the given sources. -/
def globMatch : List Nat → List Nat → Bool
  | [], [] => true
  | [], _ :: _ => false
  | 42 :: prest, text =>
    globMatch prest text ||
      (match text with
       | [] => false
       | _ :: trest => globMatch (42 :: prest) trest)
  | 63 :: _, [] => false
  | 63 :: prest, _ :: trest => globMatch prest trest
  | 91 :: prest, text =>
    match h : classBody prest with
    | none => false
    | some (body, prest2) =>
      match text with
      | [] => false
      | c :: trest =>
        (match body with
         | 94 :: items => !(inClass items c)
         | items => inClass items c) && globMatch prest2 trest
  | 92 :: x :: prest, c :: trest => (x = c) && globMatch prest trest
  | 92 :: _ :: _, [] => false
  | [92], _ => false
  | p :: prest, c :: trest => (p = c) && globMatch prest trest
  | _ :: _, [] => false
termination_by p t => (p.length, t.length)
decreasing_by
  all_goals
    first
      | (apply Prod.Lex.right
         simp only [List.length_cons]
         omega)
      | (apply Prod.Lex.left
         simp only [List.length_cons]
         omega)
      | (apply Prod.Lex.left
         have := classBody_length _ _ _ h
         simp only [List.length_cons]
         omega)

/-- Modelled from the spec: `Db::keys(pattern)`. -/
def keysDb (s : DbState) (pat : RStr) : List RStr :=
  (s.map Prod.fst).filter (fun k => globMatch pat k)

/-! ## Map and push helper lemmas -/

theorem mapGet_insert_self {α : Type} (k : RStr) (v : α) :
    ∀ s : List (RStr × α), mapGet k (mapInsert k v s) = some v := by
  intro s
  induction s with
  | nil => simp [mapInsert, mapGet]
  | cons p rest ih =>
    obtain ⟨k2, v2⟩ := p
    by_cases h : k2 = k
    · simp [mapInsert, mapGet, h]
    · simp [mapInsert, mapGet, h, ih]

/-- Pushing each value of `vs` to the front in reversed order prepends `vs`. -/
theorem pushFrontAll_eq : ∀ vs d : List RStr, pushFrontAll vs d = vs ++ d := by
  intro vs
  induction vs with
  | nil => intro d; rfl
  | cons v tl ih =>
    intro d
    rw [pushFrontAll, List.reverse_cons, List.foldl_append]
    have h1 : (v :: tl) ++ d = v :: (tl ++ d) := rfl
    rw [h1, ← ih d]
    rfl

/-- Pushing each value of `vs` to the back appends `vs`. -/
theorem pushBackAll_eq : ∀ vs d : List RStr, pushBackAll vs d = d ++ vs := by
  intro vs
  induction vs with
  | nil => intro d; simp [pushBackAll]
  | cons v tl ih =>
    intro d
    rw [pushBackAll, List.foldl_cons, ← pushBackAll, ih]
    simp

/-! ## Claim C2: LPUSH ordering -/

/-- C2 counterexample.  The claim says `LPUSH k a b c` on an absent key
yields head-to-tail `c b a`; the source reverses the argument vector before
pushing each element to the front, so the resulting deque is head-to-tail
`a b c` (the source's own unit test `test_list_operations` asserts this
order).  Bytes: `k` = 107, `a` = 97, `b` = 98, `c` = 99. -/
theorem c2_counterexample :
    (lpush [] [107] [[97], [98], [99]]).2 =
      [([107], Entry.mk (.list [[97], [98], [99]]) none)] ∧
    (lpush [] [107] [[97], [98], [99]]).2 ≠
      [([107], Entry.mk (.list [[99], [98], [97]]) none)] := by
  constructor
  · decide
  · decide

/-- C2 amended: `LPUSH k v1 .. vn` on an absent key or a list key yields the
list `v1 .. vn` followed by the previous contents (the argument vector is
reversed and then each value is pushed to the head), and returns the new
length. -/
theorem c2_lpush_order (s : DbState) (k : RStr) (vs prev : List RStr) :
    (mapGet k s = none →
      lpush s k vs = (vs.length, mapInsert k (Entry.mk (.list vs) none) s)) ∧
    (∀ exp, mapGet k s = some (Entry.mk (.list prev) exp) →
      lpush s k vs =
        (vs.length + prev.length, mapInsert k (Entry.mk (.list (vs ++ prev)) exp) s)) := by
  constructor
  · intro h
    rw [lpush, h]
    simp only [pushFrontAll_eq, List.append_nil]
  · intro exp h
    rw [lpush, h]
    simp only [pushFrontAll_eq, List.length_append]

/-- C2 witness: the amended theorem evaluated on concrete inputs. -/
theorem c2_lpush_order_witness :
    lpush [] [107] [[97], [98], [99]] =
      (3, [([107], Entry.mk (.list [[97], [98], [99]]) none)]) ∧
    lpush [([107], Entry.mk (.list [[100]]) (some 5))] [107] [[97]] =
      (2, [([107], Entry.mk (.list [[97], [100]]) (some 5))]) := by
  constructor
  · rw [(c2_lpush_order [] [107] [[97], [98], [99]] []).1 rfl]
    rfl
  · rw [(c2_lpush_order [([107], Entry.mk (.list [[100]]) (some 5))] [107] [[97]]
      [[100]]).2 (some 5) rfl]
    rfl

/-! ## Claim C1: empty containers are not removed -/

/-- C1 counterexample.  Popping the last list element (resp. removing the last
set member, deleting the last hash field) does not remove the entry: `EXISTS`
still reports true and `TYPE` still reports the container type, where the
claim requires false and `none`. -/
theorem c1_counterexample :
    (existsDb (lpop [([107], Entry.mk (.list [[97]]) none)] [107]).2 [107] 0).1 = true ∧
    getType (lpop [([107], Entry.mk (.list [[97]]) none)] [107]).2 [107] = some "list" ∧
    (existsDb (srem [([107], Entry.mk (.set [[97]]) none)] [107] [[97]]).2 [107] 0).1 = true ∧
    getType (srem [([107], Entry.mk (.set [[97]]) none)] [107] [[97]]).2 [107] = some "set" ∧
    (existsDb (hdel [([107], Entry.mk (.hash [([102], [118])]) none)] [107] [[102]]).2
        [107] 0).1 = true ∧
    getType (hdel [([107], Entry.mk (.hash [([102], [118])]) none)] [107] [[102]]).2 [107] =
      some "hash" := by
  refine ⟨by decide, by decide, by decide, by decide, by decide, by decide⟩

/-- C1 amended: the operation that empties a typed container leaves the entry
in the keyspace holding the empty container; immediately afterwards `exists`
returns true (the entry being unexpired) and `type` returns the container's
type, not `none`. -/
theorem c1_empty_container_persists (s : DbState) (k : RStr) (now : Nat) :
    (∀ v, mapGet k s = some (Entry.mk (.list [v]) none) →
      lpop s k = (some v, mapInsert k (Entry.mk (.list []) none) s) ∧
      (existsDb (lpop s k).2 k now).1 = true ∧
      getType (lpop s k).2 k = some "list") ∧
    (∀ m, mapGet k s = some (Entry.mk (.set [m]) none) →
      srem s k [m] = (1, mapInsert k (Entry.mk (.set []) none) s) ∧
      (existsDb (srem s k [m]).2 k now).1 = true ∧
      getType (srem s k [m]).2 k = some "set") ∧
    (∀ f v, mapGet k s = some (Entry.mk (.hash [(f, v)]) none) →
      hdel s k [f] = (1, mapInsert k (Entry.mk (.hash []) none) s) ∧
      (existsDb (hdel s k [f]).2 k now).1 = true ∧
      getType (hdel s k [f]).2 k = some "hash") := by
  refine ⟨?_, ?_, ?_⟩
  · intro v h
    have hpop : lpop s k = (some v, mapInsert k (Entry.mk (.list []) none) s) := by
      rw [lpop, h]
    refine ⟨hpop, ?_, ?_⟩
    · rw [hpop]
      simp only [existsDb, mapGet_insert_self]
    · rw [hpop]
      simp only [getType, mapGet_insert_self, Option.map]
      rfl
  · intro m h
    have hsrem : srem s k [m] = (1, mapInsert k (Entry.mk (.set []) none) s) := by
      rw [srem, h]
      simp only [sremAll, List.foldl_cons, List.foldl_nil, setRemove]
      rw [if_pos (by simp)]
      simp [List.erase_cons]
    refine ⟨hsrem, ?_, ?_⟩
    · rw [hsrem]
      simp only [existsDb, mapGet_insert_self]
    · rw [hsrem]
      simp only [getType, mapGet_insert_self, Option.map]
      rfl
  · intro f v h
    have hh : hdel s k [f] = (1, mapInsert k (Entry.mk (.hash []) none) s) := by
      rw [hdel, h]
      simp only [hdelAll, List.foldl_cons, List.foldl_nil]
      rw [if_pos (by simp [mapGet])]
      simp [mapRemove]
    refine ⟨hh, ?_, ?_⟩
    · rw [hh]
      simp only [existsDb, mapGet_insert_self]
    · rw [hh]
      simp only [getType, mapGet_insert_self, Option.map]
      rfl

/-- C1 witness: the amended theorem evaluated on concrete inputs. -/
theorem c1_empty_container_persists_witness :
    lpop [([107], Entry.mk (.list [[97]]) none)] [107] =
      (some [97], [([107], Entry.mk (.list []) none)]) ∧
    srem [([107], Entry.mk (.set [[97]]) none)] [107] [[97]] =
      (1, [([107], Entry.mk (.set []) none)]) ∧
    hdel [([107], Entry.mk (.hash [([102], [118])]) none)] [107] [[102]] =
      (1, [([107], Entry.mk (.hash []) none)]) := by
  refine ⟨?_, ?_, ?_⟩
  · rw [((c1_empty_container_persists [([107], Entry.mk (.list [[97]]) none)] [107] 0).1
      [97] rfl).1]
    rfl
  · rw [((c1_empty_container_persists [([107], Entry.mk (.set [[97]]) none)] [107] 0).2.1
      [97] rfl).1]
    rfl
  · rw [((c1_empty_container_persists [([107], Entry.mk (.hash [([102], [118])]) none)]
      [107] 0).2.2 [102] [118] rfl).1]
    rfl

/-! ## Claim C3: lazy expiry is not applied by every accessor -/

/-- C3 counterexample.  With `expires_at = 5` and the current instant 10 the
entry is expired, yet `Db::get_type` (which never reads the clock) still
reports the stored type instead of removing the entry and reporting `none`,
`Db::delete` returns true instead of treating the expired key as absent, and
`Db::llen` still reports the stored length. -/
theorem c3_counterexample :
    getType [([107], Entry.mk (.str [118]) (some 5))] [107] = some "string" ∧
    (deleteDb [([107], Entry.mk (.str [118]) (some 5))] [107]).1 = true ∧
    llen [([107], Entry.mk (.list [[97]]) (some 5))] [107] = some 1 ∧
    readString [([107], Entry.mk (.str [118]) (some 5))] [107] 10 = (none, []) := by
  refine ⟨by decide, by decide, by decide, by decide⟩

/-- C3 amended: only `read_string` and `exists` perform lazy expiry (deleting
the expired entry and reporting absence); `get_type` returns the stored type
without consulting the clock, `delete` removes the entry and reports that it
existed even when expired, and the other accessors (here `llen`) likewise
ignore expiry. -/
theorem c3_lazy_expiry_partial (s : DbState) (k : RStr) (now t : Nat) (e : Entry) :
    (mapGet k s = some e → e.expiresAt = some t → t ≤ now →
      readString s k now = (none, mapRemove k s) ∧
      existsDb s k now = (false, mapRemove k s)) ∧
    (mapGet k s = some e → getType s k = some e.value.typeName) ∧
    (mapGet k s = some e → deleteDb s k = (true, mapRemove k s)) ∧
    (∀ d, mapGet k s = some (Entry.mk (.list d) (some t)) → t ≤ now →
      llen s k = some d.length) := by
  refine ⟨?_, ?_, ?_, ?_⟩
  · intro h he hle
    constructor
    · rw [readString, h]
      dsimp only
      rw [he]
      simp [hle]
    · rw [existsDb, h]
      dsimp only
      rw [he]
      simp [hle]
  · intro h
    rw [getType, h]
    rfl
  · intro h
    rw [deleteDb, h]
    rfl
  · intro d h _
    rw [llen, h]
    rfl

/-- C3 witness: the amended theorem evaluated on concrete inputs. -/
theorem c3_lazy_expiry_partial_witness :
    readString [([107], Entry.mk (.str [118]) (some 5))] [107] 10 = (none, []) ∧
    existsDb [([107], Entry.mk (.str [118]) (some 5))] [107] 10 = (false, []) ∧
    getType [([107], Entry.mk (.str [118]) (some 5))] [107] = some "string" ∧
    deleteDb [([107], Entry.mk (.str [118]) (some 5))] [107] = (true, []) ∧
    llen [([107], Entry.mk (.list [[97]]) (some 5))] [107] = some 1 := by
  have h1 := c3_lazy_expiry_partial [([107], Entry.mk (.str [118]) (some 5))] [107] 10 5
    (Entry.mk (.str [118]) (some 5))
  have h2 := c3_lazy_expiry_partial [([107], Entry.mk (.list [[97]]) (some 5))] [107] 10 5
    (Entry.mk (.list [[97]]) (some 5))
  refine ⟨?_, ?_, ?_, ?_, ?_⟩
  · rw [(h1.1 rfl rfl (by omega)).1]; rfl
  · rw [(h1.1 rfl rfl (by omega)).2]; rfl
  · rw [h1.2.1 rfl]; rfl
  · rw [h1.2.2.1 rfl]; rfl
  · rw [h2.2.2.2 [[97]] rfl (by omega)]
    rfl

/-! ## Claim C8: LRANGE clamp semantics -/

/-- C8's specification-side slice, written from the claim's words: resolve a
negative index end-relative (`-1` is the last element), clamp the resolved
start up to `0` and the resolved stop down to the last index, and return the
contiguous inclusive slice (so an inverted resolved range gives a
non-positive count, i.e. the empty sequence). -/
def specLrange (d : List RStr) (start stop : Int) : List RStr :=
  let len : Int := d.length
  let s := if start < 0 then len + start else start
  let t := if stop < 0 then len + stop else stop
  let s2 : Nat := (max s 0).toNat
  (d.drop s2).take (min t (len - 1) - s2 + 1).toNat

theorem slice_arith (d : List RStr) (A B S C : Nat)
    (hcase : (A = S ∧ B - A = C) ∨ (d.length ≤ A ∧ d.length ≤ S)) :
    (d.drop A).take (B - A) = (d.drop S).take C := by
  rcases hcase with ⟨h1, h2⟩ | ⟨h1, h2⟩
  · subst h1
    rw [h2]
  · rw [List.drop_eq_nil_of_le h1, List.drop_eq_nil_of_le h2]
    simp

/-- The source's `Db::lrange` index arithmetic produces exactly the clamped
inclusive slice of the specification. -/
theorem lrange_slice (d : List RStr) (i j : Int) :
    (if (if i < 0 then max ((d.length : Int) + i) 0 else min i (d.length : Int)).toNat ≥
        (if j < 0 then max ((d.length : Int) + j) (-1) + 1
         else min (j + 1) (d.length : Int)).toNat
     then ([] : List RStr)
     else (d.drop
        (if i < 0 then max ((d.length : Int) + i) 0 else min i (d.length : Int)).toNat).take
       ((if j < 0 then max ((d.length : Int) + j) (-1) + 1
         else min (j + 1) (d.length : Int)).toNat -
        (if i < 0 then max ((d.length : Int) + i) 0 else min i (d.length : Int)).toNat)) =
    specLrange d i j := by
  have hunify : ∀ (A B : Nat) (dd : List RStr),
      (if A ≥ B then ([] : List RStr) else (dd.drop A).take (B - A)) =
        (dd.drop A).take (B - A) := by
    intro A B dd
    split
    · rename_i hge
      rw [Nat.sub_eq_zero_of_le hge]
      rfl
    · rfl
  rw [hunify]
  rw [specLrange]
  by_cases hi : i < 0 <;> by_cases hj : j < 0 <;>
    simp only [if_pos, if_neg, hi, hj, ite_true, ite_false] <;>
    (apply slice_arith; omega)

/-- C8: for a key holding a list, `Db::lrange` returns exactly the
specification's clamped, end-relative, inclusive slice. -/
theorem c8_lrange_clamp (s : DbState) (k : RStr) (exp : Option Nat) (d : List RStr)
    (i j : Int) (hget : mapGet k s = some (Entry.mk (.list d) exp)) :
    lrange s k i j = some (specLrange d i j) := by
  rw [lrange, hget]
  dsimp only
  rw [← apply_ite some, lrange_slice]

/-- C8 witness: the theorem evaluated on a concrete three-element list with
`LRANGE k 0 -1` and `LRANGE k -2 7`. -/
theorem c8_lrange_clamp_witness :
    lrange [([107], Entry.mk (.list [[97], [98], [99]]) none)] [107] 0 (-1) =
      some [[97], [98], [99]] ∧
    lrange [([107], Entry.mk (.list [[97], [98], [99]]) none)] [107] (-2) 7 =
      some [[98], [99]] := by
  constructor
  · rw [c8_lrange_clamp [([107], Entry.mk (.list [[97], [98], [99]]) none)] [107] none
      [[97], [98], [99]] 0 (-1) rfl]
    decide
  · rw [c8_lrange_clamp [([107], Entry.mk (.list [[97], [98], [99]]) none)] [107] none
      [[97], [98], [99]] (-2) 7 rfl]
    decide

/-! ## Claim C10: wrong-type policy -/

/-- C10: on a live entry of the wrong type, every read reports the absent
value (`none` / `0` / `false`) and every mutating operation returns the zero
result while leaving the state — the entry's value and `expires_at`
included — completely unchanged. -/
theorem c10_wrong_type (s : DbState) (k : RStr) (e : Entry) (now : Nat)
    (hk : mapGet k s = some e)
    (hlive : ∀ t, e.expiresAt = some t → now < t) :
    ((∀ b, e.value ≠ .str b) → readString s k now = (none, s)) ∧
    ((∀ d, e.value ≠ .list d) →
      llen s k = none ∧ (∀ i j, lrange s k i j = none) ∧
      (∀ vs, lpush s k vs = (0, s)) ∧ (∀ vs, rpush s k vs = (0, s)) ∧
      lpop s k = (none, s) ∧ rpop s k = (none, s)) ∧
    ((∀ xs, e.value ≠ .set xs) →
      smembers s k = none ∧ (∀ m, sismember s k m = false) ∧ scard s k = 0 ∧
      (∀ ms, sadd s k ms = (0, s)) ∧ (∀ ms, srem s k ms = (0, s))) ∧
    ((∀ h, e.value ≠ .hash h) →
      (∀ f, hget s k f = none) ∧ hgetall s k = none ∧
      (∀ f, hexists s k f = false) ∧ hlen s k = 0 ∧
      (∀ f v, hset s k f v = (false, s)) ∧ (∀ fs, hdel s k fs = (0, s))) := by
  refine ⟨?_, ?_, ?_, ?_⟩
  · intro hty
    rw [readString, hk]
    dsimp only
    rcases he : e.expiresAt with _ | t
    · cases hv : e.value with
      | str b => exact absurd hv (hty b)
      | list d => rfl
      | set xs => rfl
      | hash h => rfl
    · dsimp only
      rw [if_neg (by have := hlive t he; omega)]
      cases hv : e.value with
      | str b => exact absurd hv (hty b)
      | list d => rfl
      | set xs => rfl
      | hash h => rfl
  · intro hty
    refine ⟨?_, ?_, ?_, ?_, ?_, ?_⟩
    · rw [llen, hk]
      simp only [Option.some_bind]
    · intro i j
      rw [lrange, hk]
      dsimp only
      cases hv : e.value with
      | str b => rfl
      | list d => exact absurd hv (hty d)
      | set xs => rfl
      | hash h => rfl
    · intro vs
      rw [lpush, hk]
      dsimp only
      cases hv : e.value with
      | str b => rfl
      | list d => exact absurd hv (hty d)
      | set xs => rfl
      | hash h => rfl
    · intro vs
      rw [rpush, hk]
      dsimp only
      cases hv : e.value with
      | str b => rfl
      | list d => exact absurd hv (hty d)
      | set xs => rfl
      | hash h => rfl
    · rw [lpop, hk]
      dsimp only
      cases hv : e.value with
      | str b => rfl
      | list d => exact absurd hv (hty d)
      | set xs => rfl
      | hash h => rfl
    · rw [rpop, hk]
      dsimp only
      cases hv : e.value with
      | str b => rfl
      | list d => exact absurd hv (hty d)
      | set xs => rfl
      | hash h => rfl
  · intro hty
    refine ⟨?_, ?_, ?_, ?_, ?_⟩
    · rw [smembers, hk]
      simp only [Option.some_bind]
    · intro m
      rw [sismember, hk]
      dsimp only
      cases hv : e.value with
      | str b => rfl
      | list d => rfl
      | set xs => exact absurd hv (hty xs)
      | hash h => rfl
    · rw [scard, hk]
      dsimp only
      cases hv : e.value with
      | str b => rfl
      | list d => rfl
      | set xs => exact absurd hv (hty xs)
      | hash h => rfl
    · intro ms
      rw [sadd, hk]
      dsimp only
      cases hv : e.value with
      | str b => rfl
      | list d => rfl
      | set xs => exact absurd hv (hty xs)
      | hash h => rfl
    · intro ms
      rw [srem, hk]
      dsimp only
      cases hv : e.value with
      | str b => rfl
      | list d => rfl
      | set xs => exact absurd hv (hty xs)
      | hash h => rfl
  · intro hty
    refine ⟨?_, ?_, ?_, ?_, ?_, ?_⟩
    · intro f
      rw [hget, hk]
      simp only [Option.some_bind]
    · rw [hgetall, hk]
      simp only [Option.some_bind]
    · intro f
      rw [hexists, hk]
      dsimp only
      cases hv : e.value with
      | str b => rfl
      | list d => rfl
      | set xs => rfl
      | hash h => exact absurd hv (hty h)
    · rw [hlen, hk]
      dsimp only
      cases hv : e.value with
      | str b => rfl
      | list d => rfl
      | set xs => rfl
      | hash h => exact absurd hv (hty h)
    · intro f v
      rw [hset, hk]
      dsimp only
      cases hv : e.value with
      | str b => rfl
      | list d => rfl
      | set xs => rfl
      | hash h => exact absurd hv (hty h)
    · intro fs
      rw [hdel, hk]
      dsimp only
      cases hv : e.value with
      | str b => rfl
      | list d => rfl
      | set xs => rfl
      | hash h => exact absurd hv (hty h)

/-- C10 witness: the theorem applied to a live set-valued entry (for string,
list and hash operations) and a live string-valued entry (for set
operations). -/
theorem c10_wrong_type_witness :
    readString [([107], Entry.mk (.set [[97]]) none)] [107] 0 =
      (none, [([107], Entry.mk (.set [[97]]) none)]) ∧
    lpush [([107], Entry.mk (.set [[97]]) none)] [107] [[98]] =
      (0, [([107], Entry.mk (.set [[97]]) none)]) ∧
    hset [([107], Entry.mk (.set [[97]]) none)] [107] [102] [118] =
      (false, [([107], Entry.mk (.set [[97]]) none)]) ∧
    sadd [([107], Entry.mk (.str [118]) none)] [107] [[97]] =
      (0, [([107], Entry.mk (.str [118]) none)]) := by
  have h1 := c10_wrong_type [([107], Entry.mk (.set [[97]]) none)] [107]
    (Entry.mk (.set [[97]]) none) 0 rfl (fun t ht => Option.noConfusion ht)
  have h2 := c10_wrong_type [([107], Entry.mk (.str [118]) none)] [107]
    (Entry.mk (.str [118]) none) 0 rfl (fun t ht => Option.noConfusion ht)
  refine ⟨?_, ?_, ?_, ?_⟩
  · exact h1.1 (fun b hb => Value.noConfusion hb)
  · exact (h1.2.1 (fun d hd => Value.noConfusion hd)).2.2.1 [[98]]
  · exact (h1.2.2.2 (fun h hh => Value.noConfusion hh)).2.2.2.2.1 [102] [118]
  · exact (h2.2.2.1 (fun xs hx => Value.noConfusion hx)).2.2.2.1 [[97]]

/-! ## The command layer (`src/cmd/mod.rs`)

`Command::from_frame` extracts each argument with one of a few repeated
inline `match` blocks; those blocks are factored here into `cmdNameOf`,
`argString`, `argBytes`, `argI64`, `argU64` with identical semantics.
Error strings of the source are mapped onto the constructors of `CmdErr`
(the payload text is elided).  `Instant::now()` inside the `EX` option
handler becomes the `now` parameter. -/

/-- Bytes of an ASCII string literal (used only for the source's ASCII
literals, where `Char.toNat` is the byte value). -/
def ascii (s : String) : RStr := s.data.map Char.toNat

/-- Parse-error classes of `Command::from_frame` (source message texts in
parentheses): `notArray` ("command must be an array"), `emptyCommand`
("empty command"), `invalidUtf8` ("invalid UTF-8 in ..."), `notString`
("... must be a string"), `wrongArity` ("ERR wrong number of arguments
for ... "), `syntaxError` ("ERR syntax error [near ...]"), `notInteger`
("ERR value is not an integer or out of range"). -/
inductive CmdErr where
  | notArray
  | emptyCommand
  | invalidUtf8
  | notString
  | wrongArity
  | syntaxError
  | notInteger
deriving DecidableEq

/-- The `Command` enum. -/
inductive Command where
  | ping (msg : Option RStr)
  | set (key : RStr) (value : RStr) (expiresAt : Option Nat)
  | get (key : RStr)
  | echo (message : RStr)
  | del (keys : List RStr)
  | existsKey (key : RStr)
  | typeKey (key : RStr)
  | dbsize
  | flushdb
  | keys (pattern : RStr)
  | lpush (key : RStr) (values : List RStr)
  | rpush (key : RStr) (values : List RStr)
  | lpop (key : RStr)
  | rpop (key : RStr)
  | lrange (key : RStr) (start stop : Int)
  | llen (key : RStr)
  | sadd (key : RStr) (members : List RStr)
  | srem (key : RStr) (members : List RStr)
  | smembers (key : RStr)
  | sismember (key : RStr) (member : RStr)
  | scard (key : RStr)
  | hset (key : RStr) (field : RStr) (value : RStr)
  | hget (key : RStr) (field : RStr)
  | hgetall (key : RStr)
  | hdel (key : RStr) (fields : List RStr)
  | hexists (key : RStr) (field : RStr)
  | hlen (key : RStr)
  | publish (channel : RStr) (message : RStr)
  | unknown (name : RStr)
deriving DecidableEq

/-- Command-name extraction (`&array[0]`): UTF-8 check for `Bulk`, then
`to_uppercase`. -/
def cmdNameOf : Frame → Except CmdErr RStr
  | .bulk data => if utf8Valid data then .ok (asciiUpper data) else .error .invalidUtf8
  | .simple s => .ok (asciiUpper s)
  | _ => .error .notString

/-- A key/field/member/pattern/channel argument: `Bulk` needs UTF-8,
`Simple` is already a string. -/
def argString : Frame → Except CmdErr RStr
  | .bulk data => if utf8Valid data then .ok data else .error .invalidUtf8
  | .simple s => .ok s
  | _ => .error .notString

/-- A value/message argument: `Bulk` passes its raw bytes, `Simple` is
converted to bytes. -/
def argBytes : Frame → Except CmdErr RStr
  | .bulk data => .ok data
  | .simple s => .ok s
  | _ => .error .notString

/-- A signed numeric argument (`parse::<isize>`, 64-bit target). -/
def argI64 : Frame → Except CmdErr Int
  | .bulk data =>
    if utf8Valid data then
      match parseI64 data with
      | some n => .ok n
      | none => .error .notInteger
    else .error .invalidUtf8
  | .simple s =>
    (match parseI64 s with
     | some n => .ok n
     | none => .error .notInteger)
  | _ => .error .notInteger

/-- An unsigned numeric argument (`parse::<u64>` for `EX` seconds).  The
source maps a non-string frame here to the not-an-integer error. -/
def argU64 : Frame → Except CmdErr Nat
  | .bulk data =>
    if utf8Valid data then
      match parseU64 data with
      | some n => .ok n
      | none => .error .notInteger
    else .error .invalidUtf8
  | .simple s =>
    (match parseU64 s with
     | some n => .ok n
     | none => .error .notInteger)
  | _ => .error .notInteger

/-- The per-argument collection loops (`for i in 1.. / 2..array.len()`). -/
def argStringList : List Frame → Except CmdErr (List RStr)
  | [] => .ok []
  | f :: rest => do
    let a ← argString f
    let as ← argStringList rest
    .ok (a :: as)

/-- Value-collection loop of `LPUSH`/`RPUSH`. -/
def argBytesList : List Frame → Except CmdErr (List RStr)
  | [] => .ok []
  | f :: rest => do
    let a ← argBytes f
    let as ← argBytesList rest
    .ok (a :: as)

/-- The `SET` option loop (`while i < array.len()`): uppercase the option
token, handle `EX seconds` (setting `expires_at = now + seconds`, so a later
`EX` wins), reject anything else as a syntax error. -/
def setOptionsLoop (now : Nat) (acc : Option Nat) : List Frame → Except CmdErr (Option Nat)
  | [] => .ok acc
  | f :: rest => do
    let opt ← (match f with
      | .bulk data => if utf8Valid data then .ok (asciiUpper data) else .error CmdErr.invalidUtf8
      | .simple s => .ok (asciiUpper s)
      | _ => .error CmdErr.notString)
    if opt = ascii "EX" then
      match rest with
      | [] => .error .syntaxError
      | fsec :: rest2 => do
        let secs ← argU64 fsec
        setOptionsLoop now (some (now + secs)) rest2
    else .error .syntaxError

/-- `Command::from_frame`.  Arity checks are against `array.len()` (command
name included), as in the source. -/
def fromFrame (now : Nat) (f : Frame) : Except CmdErr Command :=
  match f with
  | .array [] => .error .emptyCommand
  | .array (a0 :: args) => do
    let name ← cmdNameOf a0
    if name = ascii "PING" then
      match args with
      | [] => .ok (.ping none)
      | [m] => do
        let msg ← argBytes m
        .ok (.ping (some msg))
      | _ => .error .wrongArity
    else if name = ascii "SET" then
      match args with
      | fk :: fv :: opts => do
        let k ← argString fk
        let v ← argBytes fv
        let exp ← setOptionsLoop now none opts
        .ok (.set k v exp)
      | _ => .error .wrongArity
    else if name = ascii "GET" then
      match args with
      | [fk] => do
        let k ← argString fk
        .ok (.get k)
      | _ => .error .wrongArity
    else if name = ascii "ECHO" then
      match args with
      | [fm] => do
        let m ← argBytes fm
        .ok (.echo m)
      | _ => .error .wrongArity
    else if name = ascii "DEL" then
      match args with
      | [] => .error .wrongArity
      | fs => do
        let ks ← argStringList fs
        .ok (.del ks)
    else if name = ascii "EXISTS" then
      match args with
      | [fk] => do
        let k ← argString fk
        .ok (.existsKey k)
      | _ => .error .wrongArity
    else if name = ascii "TYPE" then
      match args with
      | [fk] => do
        let k ← argString fk
        .ok (.typeKey k)
      | _ => .error .wrongArity
    else if name = ascii "DBSIZE" then
      match args with
      | [] => .ok .dbsize
      | _ => .error .wrongArity
    else if name = ascii "FLUSHDB" then
      match args with
      | [] => .ok .flushdb
      | _ => .error .wrongArity
    else if name = ascii "KEYS" then
      match args with
      | [fp] => do
        let p ← argString fp
        .ok (.keys p)
      | _ => .error .wrongArity
    else if name = ascii "LPUSH" then
      match args with
      | fk :: fv :: more => do
        let k ← argString fk
        let vs ← argBytesList (fv :: more)
        .ok (.lpush k vs)
      | _ => .error .wrongArity
    else if name = ascii "RPUSH" then
      match args with
      | fk :: fv :: more => do
        let k ← argString fk
        let vs ← argBytesList (fv :: more)
        .ok (.rpush k vs)
      | _ => .error .wrongArity
    else if name = ascii "LPOP" then
      match args with
      | [fk] => do
        let k ← argString fk
        .ok (.lpop k)
      | _ => .error .wrongArity
    else if name = ascii "RPOP" then
      match args with
      | [fk] => do
        let k ← argString fk
        .ok (.rpop k)
      | _ => .error .wrongArity
    else if name = ascii "LRANGE" then
      match args with
      | [fk, fs, fe] => do
        let k ← argString fk
        let st ← argI64 fs
        let en ← argI64 fe
        .ok (.lrange k st en)
      | _ => .error .wrongArity
    else if name = ascii "LLEN" then
      match args with
      | [fk] => do
        let k ← argString fk
        .ok (.llen k)
      | _ => .error .wrongArity
    else if name = ascii "SADD" then
      match args with
      | fk :: fm :: more => do
        let k ← argString fk
        let ms ← argStringList (fm :: more)
        .ok (.sadd k ms)
      | _ => .error .wrongArity
    else if name = ascii "SREM" then
      match args with
      | fk :: fm :: more => do
        let k ← argString fk
        let ms ← argStringList (fm :: more)
        .ok (.srem k ms)
      | _ => .error .wrongArity
    else if name = ascii "SMEMBERS" then
      match args with
      | [fk] => do
        let k ← argString fk
        .ok (.smembers k)
      | _ => .error .wrongArity
    else if name = ascii "SISMEMBER" then
      match args with
      | [fk, fm] => do
        let k ← argString fk
        let m ← argString fm
        .ok (.sismember k m)
      | _ => .error .wrongArity
    else if name = ascii "SCARD" then
      match args with
      | [fk] => do
        let k ← argString fk
        .ok (.scard k)
      | _ => .error .wrongArity
    else if name = ascii "HSET" then
      match args with
      | [fk, ff, fv] => do
        let k ← argString fk
        let fl ← argString ff
        let v ← argBytes fv
        .ok (.hset k fl v)
      | _ => .error .wrongArity
    else if name = ascii "HGET" then
      match args with
      | [fk, ff] => do
        let k ← argString fk
        let fl ← argString ff
        .ok (.hget k fl)
      | _ => .error .wrongArity
    else if name = ascii "HGETALL" then
      match args with
      | [fk] => do
        let k ← argString fk
        .ok (.hgetall k)
      | _ => .error .wrongArity
    else if name = ascii "HDEL" then
      match args with
      | fk :: ff :: more => do
        let k ← argString fk
        let fs ← argStringList (ff :: more)
        .ok (.hdel k fs)
      | _ => .error .wrongArity
    else if name = ascii "HEXISTS" then
      match args with
      | [fk, ff] => do
        let k ← argString fk
        let fl ← argString ff
        .ok (.hexists k fl)
      | _ => .error .wrongArity
    else if name = ascii "HLEN" then
      match args with
      | [fk] => do
        let k ← argString fk
        .ok (.hlen k)
      | _ => .error .wrongArity
    else if name = ascii "PUBLISH" then
      match args with
      | [fc, fm] => do
        let c ← argString fc
        let m ← argBytes fm
        .ok (.publish c m)
      | _ => .error .wrongArity
    else .ok (.unknown name)
  | _ => .error .notArray

/-- Pub/sub channel map (`src/pubsub.rs`): channel name to its broadcast
receiver count.  `publish` on an existing channel sends and returns
`receiver_count()` (a failed send with zero receivers yields 0, which the
stored count models); a missing channel yields 0 and is not created. -/
abbrev PubSubState := List (RStr × Nat)

/-- `PubSub::publish`'s returned delivery count. -/
def pubsubPublish (ps : PubSubState) (ch : RStr) : Nat := (mapGet ch ps).getD 0

/-- The `DEL` accumulation loop of `Command::execute`. -/
def delAll (ks : List RStr) (db : DbState) : Nat × DbState :=
  ks.foldl
    (fun acc k1 =>
      let d := deleteDb acc.2 k1
      (acc.1 + (if d.1 then 1 else 0), d.2))
    (0, db)

/-- `Command::execute` restricted to its keyspace effect and the response
frames it writes to the connection (exactly one per command); the AOF append
and the network write error paths do not touch the keyspace. -/
def executeDb (c : Command) (db : DbState) (ps : PubSubState) (now : Nat) :
    DbState × List Frame :=
  match c with
  | .ping msg =>
    (db, [match msg with
          | some m => .bulk m
          | none => .simple (ascii "PONG")])
  | .set k v exp => (writeString db k v exp, [.simple (ascii "OK")])
  | .get k =>
    let r := readString db k now
    (r.2, [match r.1 with
           | some v => .bulk v
           | none => .null])
  | .echo m => (db, [.bulk m])
  | .del ks =>
    let r := delAll ks db
    (r.2, [.integer r.1])
  | .existsKey k =>
    let r := existsDb db k now
    (r.2, [.integer (if r.1 then 1 else 0)])
  | .typeKey k => (db, [.simple (ascii ((getType db k).getD "none"))])
  | .dbsize => (db, [.integer (dbsize db)])
  | .flushdb => (flushdb db, [.simple (ascii "OK")])
  | .keys pat => (db, [.array ((keysDb db pat).map (fun k1 => .bulk k1))])
  | .lpush k vs =>
    let r := lpush db k vs
    (r.2, [.integer r.1])
  | .rpush k vs =>
    let r := rpush db k vs
    (r.2, [.integer r.1])
  | .lpop k =>
    let r := lpop db k
    (r.2, [match r.1 with
           | some v => .bulk v
           | none => .null])
  | .rpop k =>
    let r := rpop db k
    (r.2, [match r.1 with
           | some v => .bulk v
           | none => .null])
  | .lrange k i j =>
    (db, [match lrange db k i j with
          | some vs => .array (vs.map (fun v => .bulk v))
          | none => .array []])
  | .llen k => (db, [.integer ((llen db k).getD 0)])
  | .sadd k ms =>
    let r := sadd db k ms
    (r.2, [.integer r.1])
  | .srem k ms =>
    let r := srem db k ms
    (r.2, [.integer r.1])
  | .smembers k =>
    (db, [match smembers db k with
          | some ms => .array (ms.map (fun m => .bulk m))
          | none => .array []])
  | .sismember k m => (db, [.integer (if sismember db k m then 1 else 0)])
  | .scard k => (db, [.integer (scard db k)])
  | .hset k f v =>
    let r := hset db k f v
    (r.2, [.integer (if r.1 then 1 else 0)])
  | .hget k f =>
    (db, [match hget db k f with
          | some v => .bulk v
          | none => .null])
  | .hgetall k =>
    (db, [match hgetall db k with
          | some prs => .array (prs.foldr (fun p acc => .bulk p.1 :: .bulk p.2 :: acc) [])
          | none => .array []])
  | .hdel k fs =>
    let r := hdel db k fs
    (r.2, [.integer r.1])
  | .hexists k f => (db, [.integer (if hexists db k f then 1 else 0)])
  | .hlen k => (db, [.integer (hlen db k)])
  | .publish ch _ => (db, [.integer (pubsubPublish ps ch)])
  | .unknown name =>
    (db, [.error (ascii "ERR unknown command " ++ [39] ++ name ++ [39])])

/-- `Command::is_write_command`. -/
def isWriteCommand : Command → Bool
  | .set _ _ _ => true
  | .del _ => true
  | .flushdb => true
  | .lpush _ _ => true
  | .rpush _ _ => true
  | .lpop _ => true
  | .rpop _ => true
  | .sadd _ _ => true
  | .srem _ _ => true
  | .hset _ _ _ => true
  | .hdel _ _ => true
  | _ => false

/-- `Command::replay`: re-execute a write command against the keyspace,
discarding all results; read-only commands are no-ops. -/
def replayDb (c : Command) (db : DbState) : DbState :=
  match c with
  | .set k v exp => writeString db k v exp
  | .del ks => ks.foldl (fun acc k1 => (deleteDb acc k1).2) db
  | .flushdb => flushdb db
  | .lpush k vs => (lpush db k vs).2
  | .rpush k vs => (rpush db k vs).2
  | .lpop k => (lpop db k).2
  | .rpop k => (rpop db k).2
  | .sadd k ms => (sadd db k ms).2
  | .srem k ms => (srem db k ms).2
  | .hset k f v => (hset db k f v).2
  | .hdel k fs => (hdel db k fs).2
  | _ => db

/-- One iteration of `handle_connection`'s loop (`src/bin/server.rs`), given
an already-decoded request frame: parse it into a command; on a parse error
log and `continue` (writing nothing); otherwise execute, writing the
response frames.  The returned flag is whether the loop continues (both
paths continue; only I/O errors and end-of-stream leave the loop).  The AOF
append between parse and execute affects neither the keyspace nor the
responses. -/
def serverStep (f : Frame) (db : DbState) (ps : PubSubState) (now : Nat) :
    DbState × List Frame × Bool :=
  match fromFrame now f with
  | .error _ => (db, [], true)
  | .ok c =>
    let r := executeDb c db ps now
    (r.1, r.2, true)

/-! ## Claim C5: command-shape errors -/

/-- C5 counterexample.  `GET` with no argument fails command parsing with a
wrong-arity error, and the claim says the server then writes an Error frame
back; but `handle_connection` merely logs the parse error and `continue`s:
the response list of that loop iteration is empty (no Error frame is
written), though the connection does remain open. -/
theorem c5_counterexample :
    fromFrame 0 (.array [.bulk (ascii "GET")]) = .error .wrongArity ∧
    serverStep (.array [.bulk (ascii "GET")]) [] [] 0 = ([], [], true) := by
  constructor
  · rfl
  · rfl

/-- C5 amended: for every request frame that fails command parsing (wrong
arity or unknown option included), the server writes nothing back on the
connection — no Error frame — and the connection remains open for further
commands; the keyspace is untouched. -/
theorem c5_shape_error_no_response (f : Frame) (db : DbState) (ps : PubSubState)
    (now : Nat) (e : CmdErr) (h : fromFrame now f = .error e) :
    serverStep f db ps now = (db, [], true) := by
  rw [serverStep, h]

/-- C5 witness: the amended theorem applied to `ECHO` with no argument. -/
theorem c5_shape_error_no_response_witness :
    serverStep (.array [.bulk (ascii "ECHO")]) [] [] 0 = ([], [], true) :=
  c5_shape_error_no_response (.array [.bulk (ascii "ECHO")]) [] [] 0 .wrongArity rfl

/-! ## Claim C6: negative counts other than -1 -/

/-- C6 failing-input evaluation.  The claim (and spec §4.1) requires
`Frame::parse` to return Invalid for any parsed count `n ≤ -2`; instead the
code panics: for `*-2\x0d\x0a` the count survives `check_complete` (the
`for _ in 0..count` loop runs zero times) and `parse_frame` executes
`Vec::with_capacity(count as usize)` on the wrapped `usize` 2^64 - 2, a
capacity-overflow panic in every build; for `$-2\x0d\x0a` the
`len as usize + 2` / `read_n_bytes` offsets panic (add-overflow in debug,
slice bounds in release).  The model returns its `panicked` outcome — not
`invalid` — on both buffers. -/
theorem c6_negative_count_panics :
    Frame.parse [42, 45, 50, 13, 10] = .panicked ∧
    Frame.parse [36, 45, 50, 13, 10] = .panicked := by
  have h1 : readDecimal [45, 50, 13, 10] = .ok (-2, []) := rfl
  constructor
  · have hc : checkComplete [42, 45, 50, 13, 10] = .ok ⟨[], by simp⟩ := by
      rw [checkComplete.eq_def]
      norm_num
      split
      · rename_i e heq
        rw [h1] at heq
        cases heq
      · rename_i cnt r heq
        rw [h1] at heq
        have h2 : cnt = -2 ∧ r = [] :=
          ⟨(Prod.mk.inj (Except.ok.inj heq)).1.symm,
           (Prod.mk.inj (Except.ok.inj heq)).2.symm⟩
        obtain ⟨rfl, rfl⟩ := h2
        norm_num
        rw [show ((-2 : Int)).toNat = 0 from rfl]
        rw [checkN]
    have hp : parseFrame [42, 45, 50, 13, 10] = .error .panicked := by
      rw [parseFrame.eq_def]
      norm_num
      split
      · rename_i e heq
        rw [h1] at heq
        cases heq
      · rename_i cnt r heq
        rw [h1] at heq
        have h2 : cnt = -2 ∧ r = [] :=
          ⟨(Prod.mk.inj (Except.ok.inj heq)).1.symm,
           (Prod.mk.inj (Except.ok.inj heq)).2.symm⟩
        obtain ⟨rfl, rfl⟩ := h2
        norm_num
    rw [Frame.parse, parseBuf, hc]
    dsimp only
    rw [hp]
  · have hc : checkComplete [36, 45, 50, 13, 10] = .error .panicked := by
      rw [checkComplete.eq_def]
      norm_num
      split
      · rename_i e heq
        rw [h1] at heq
        cases heq
      · rename_i len r heq
        rw [h1] at heq
        have h2 : len = -2 ∧ r = [] :=
          ⟨(Prod.mk.inj (Except.ok.inj heq)).1.symm,
           (Prod.mk.inj (Except.ok.inj heq)).2.symm⟩
        obtain ⟨rfl, rfl⟩ := h2
        norm_num
    rw [Frame.parse, parseBuf, hc]

/-! ## Encoder/decoder interaction lemmas

The projected decoder views (`checkB`, `checkNB`, `parseFr`, `parseNFr`)
drop the termination bounds for clean equations. -/

def checkB (b : List Nat) : Except PErr (List Nat) := (checkComplete b).map Subtype.val

def checkNB (n : Nat) (b : List Nat) : Except PErr (List Nat) := (checkN n b).map Subtype.val

def parseFr (b : List Nat) : Except PErr (Frame × List Nat) :=
  (parseFrame b).map (fun p => (p.1, p.2.val))

def parseNFr (n : Nat) (b : List Nat) : Except PErr (List Frame × List Nat) :=
  (parseN n b).map (fun p => (p.1, p.2.val))

theorem findCrlf_cons_ne (a : Nat) (rest : List Nat) (ha : a ≠ 13) :
    findCrlf (a :: rest) = (findCrlf rest).map (· + 1) := by
  rw [findCrlf.eq_def]
  split
  · rename_i tl heq
    exact absurd ((List.cons.inj heq).1) ha
  · rename_i x xs heq
    rw [(List.cons.inj heq).2]
  · rename_i heq
    exact absurd heq (by simp)

/-- The first CRLF of `l ++ CRLF ++ r` is at `l.length` when `l` is CR-free. -/
theorem findCrlf_append : ∀ l r : List Nat, 13 ∉ l →
    findCrlf (l ++ 13 :: 10 :: r) = some l.length := by
  intro l
  induction l with
  | nil => intro r _; rfl
  | cons a tl ih =>
    intro r h13
    have ha : a ≠ 13 := fun h => h13 (h ▸ List.mem_cons_self a tl)
    rw [List.cons_append, findCrlf_cons_ne a _ ha,
      ih r (fun h => h13 (List.mem_cons_of_mem a h))]
    rfl

/-- `read_line` on an encoded line. -/
theorem readLine_append (l r : List Nat) (h13 : 13 ∉ l) :
    readLine (l ++ 13 :: 10 :: r) = some (l, r) := by
  rw [readLine, findCrlf_append l r h13]
  dsimp only
  have ht : (l ++ 13 :: 10 :: r).take l.length = l := by
    simpa using List.take_left l (13 :: 10 :: r)
  have hd : (l ++ 13 :: 10 :: r).drop (l.length + 2) = r := by
    have : l ++ 13 :: 10 :: r = (l ++ [13, 10]) ++ r := by simp
    rw [this]
    have hlen : (l ++ [13, 10]).length = l.length + 2 := by simp
    rw [← hlen]
    exact List.drop_left _ _
  rw [ht, hd]

theorem not13_digitsOf (n : Nat) : 13 ∉ digitsOf n := by
  intro h
  have := digitsOf_mem_digit n 13 h
  omega

theorem not13_intToDecimal (n : Int) : 13 ∉ intToDecimal n := by
  rw [intToDecimal]
  split
  · intro h
    rcases List.mem_cons.mp h with h | h
    · omega
    · exact not13_digitsOf _ h
  · exact not13_digitsOf _

theorem ascii_digitsOf (n : Nat) : ∀ b ∈ digitsOf n, b ≤ 127 := by
  intro b hb
  have := digitsOf_mem_digit n b hb
  omega

/-- `read_decimal` on an encoded `i64`. -/
theorem readDecimal_int (n : Int) (r : List Nat) (h1 : -(2 ^ 63) ≤ n)
    (h2 : n ≤ 2 ^ 63 - 1) :
    readDecimal (intToDecimal n ++ 13 :: 10 :: r) = .ok (n, r) := by
  rw [readDecimal, readLine_append _ _ (not13_intToDecimal n)]
  dsimp only
  have hascii : ∀ b ∈ intToDecimal n, b ≤ 127 := by
    intro b hb
    rw [intToDecimal] at hb
    split at hb
    · rcases List.mem_cons.mp hb with h | h
      · omega
      · exact ascii_digitsOf _ b h
    · exact ascii_digitsOf _ b hb
  rw [if_pos (utf8Valid_of_ascii _ hascii), parseI64_intToDecimal n h1 h2]

/-- `read_decimal` on an encoded length (`usize` printed, within `i64`). -/
theorem readDecimal_nat (m : Nat) (r : List Nat) (h : (m : Int) ≤ 2 ^ 63 - 1) :
    readDecimal (digitsOf m ++ 13 :: 10 :: r) = .ok ((m : Int), r) := by
  rw [readDecimal, readLine_append _ _ (not13_digitsOf m)]
  dsimp only
  rw [if_pos (utf8Valid_of_ascii _ (ascii_digitsOf m))]
  rw [parseI64, parseIntSigned_digitsOf _ _ m h]

theorem checkB_line (t : Nat) (X l r : List Nat) (ht : t = 43 ∨ t = 45 ∨ t = 58)
    (h : readLine X = some (l, r)) : checkB (t :: X) = .ok r := by
  rw [checkB, checkComplete.eq_def]
  dsimp only
  rw [if_pos ht]
  split
  · rename_i heq
    rw [h] at heq
    cases heq
  · rename_i l2 r2 heq
    rw [h] at heq
    obtain ⟨rfl, rfl⟩ := Prod.mk.inj (Option.some.inj heq)
    simp [Except.map]

theorem checkB_line_incomplete (t : Nat) (X : List Nat) (ht : t = 43 ∨ t = 45 ∨ t = 58)
    (h : readLine X = none) : checkB (t :: X) = .error .incomplete := by
  rw [checkB, checkComplete.eq_def]
  dsimp only
  rw [if_pos ht]
  split
  · rename_i heq
    simp [Except.map]
  · rename_i l2 r2 heq
    rw [h] at heq
    cases heq

theorem checkB_bulk_err (X : List Nat) (e : PErr) (h : readDecimal X = .error e) :
    checkB (36 :: X) = .error e := by
  rw [checkB, checkComplete.eq_def]
  norm_num
  split
  · rename_i e2 heq
    rw [h] at heq
    rw [← Except.error.inj heq]
    simp [Except.map]
  · rename_i len r heq
    rw [h] at heq
    cases heq

theorem checkB_bulk_null (X r : List Nat) (h : readDecimal X = .ok (-1, r)) :
    checkB (36 :: X) = .ok r := by
  rw [checkB, checkComplete.eq_def]
  norm_num
  split
  · rename_i e2 heq
    rw [h] at heq
    cases heq
  · rename_i len r2 heq
    rw [h] at heq
    obtain ⟨h2a, rfl⟩ := Prod.mk.inj (Except.ok.inj heq)
    rw [if_pos h2a.symm]
    simp [Except.map]

theorem checkB_bulk_ok (X : List Nat) (len : Int) (r : List Nat)
    (h : readDecimal X = .ok (len, r)) (h0 : 0 ≤ len)
    (hlen : len.toNat + 2 ≤ r.length) :
    checkB (36 :: X) = .ok (r.drop (len.toNat + 2)) := by
  rw [checkB, checkComplete.eq_def]
  norm_num
  split
  · rename_i e2 heq
    rw [h] at heq
    cases heq
  · rename_i len2 r2 heq
    rw [h] at heq
    obtain ⟨rfl, rfl⟩ := Prod.mk.inj (Except.ok.inj heq)
    rw [if_neg (by omega), if_neg (by omega), if_pos hlen]
    simp [Except.map]

theorem checkB_bulk_incomplete (X : List Nat) (len : Int) (r : List Nat)
    (h : readDecimal X = .ok (len, r)) (h0 : 0 ≤ len)
    (hlen : r.length < len.toNat + 2) :
    checkB (36 :: X) = .error .incomplete := by
  rw [checkB, checkComplete.eq_def]
  norm_num
  split
  · rename_i e2 heq
    rw [h] at heq
    cases heq
  · rename_i len2 r2 heq
    rw [h] at heq
    obtain ⟨rfl, rfl⟩ := Prod.mk.inj (Except.ok.inj heq)
    rw [if_neg (by omega), if_neg (by omega), if_neg (by omega)]
    simp [Except.map]

theorem checkB_array_err (X : List Nat) (e : PErr) (h : readDecimal X = .error e) :
    checkB (42 :: X) = .error e := by
  rw [checkB, checkComplete.eq_def]
  norm_num
  split
  · rename_i e2 heq
    rw [h] at heq
    rw [← Except.error.inj heq]
    simp [Except.map]
  · rename_i cnt r heq
    rw [h] at heq
    cases heq

theorem checkB_array_go (X : List Nat) (cnt : Int) (r : List Nat)
    (h : readDecimal X = .ok (cnt, r)) (hne : cnt ≠ -1) :
    checkB (42 :: X) = checkNB cnt.toNat r := by
  rw [checkB, checkComplete.eq_def]
  norm_num
  split
  · rename_i e2 heq
    rw [h] at heq
    cases heq
  · rename_i cnt2 r2 heq
    rw [h] at heq
    obtain ⟨rfl, rfl⟩ := Prod.mk.inj (Except.ok.inj heq)
    rw [if_neg hne]
    rw [checkNB]
    rcases hN : checkN cnt.toNat r with e3 | ⟨r3, h3⟩
    · simp [Except.map]
    · simp [Except.map]

theorem checkNB_zero (b : List Nat) : checkNB 0 b = .ok b := by
  rw [checkNB, checkN]
  simp [Except.map]

theorem checkNB_succ_ok (n : Nat) (b r : List Nat) (h : checkB b = .ok r) :
    checkNB (n + 1) b = checkNB n r := by
  rw [checkNB, checkN]
  rw [checkB] at h
  rcases hC : checkComplete b with e2 | ⟨r2, h2⟩
  · rw [hC] at h
    simp [Except.map] at h
  · rw [hC] at h
    simp only [Except.map] at h
    have hr : r2 = r := Except.ok.inj h
    subst hr
    dsimp only
    rw [checkNB]
    rcases hN : checkN n r2 with e3 | ⟨r3, h3⟩
    · simp [Except.map]
    · simp [Except.map]

theorem checkNB_succ_err (n : Nat) (b : List Nat) (e : PErr) (h : checkB b = .error e) :
    checkNB (n + 1) b = .error e := by
  rw [checkNB, checkN]
  rw [checkB] at h
  rcases hC : checkComplete b with e2 | ⟨r2, h2⟩
  · rw [hC] at h
    simp only [Except.map] at h
    dsimp only
    simp only [Except.map]
    exact h
  · rw [hC] at h
    simp [Except.map] at h

theorem parseFr_simple (X l r : List Nat) (h : readLine X = some (l, r))
    (hu : utf8Valid l = true) : parseFr (43 :: X) = .ok (.simple l, r) := by
  rw [parseFr, parseFrame.eq_def]
  norm_num
  split
  · rename_i heq
    rw [h] at heq
    cases heq
  · rename_i l2 r2 heq
    rw [h] at heq
    obtain ⟨rfl, rfl⟩ := Prod.mk.inj (Option.some.inj heq)
    rw [if_pos hu]
    simp [Except.map]

theorem parseFr_errFrame (X l r : List Nat) (h : readLine X = some (l, r))
    (hu : utf8Valid l = true) : parseFr (45 :: X) = .ok (.error l, r) := by
  rw [parseFr, parseFrame.eq_def]
  norm_num
  split
  · rename_i heq
    rw [h] at heq
    cases heq
  · rename_i l2 r2 heq
    rw [h] at heq
    obtain ⟨rfl, rfl⟩ := Prod.mk.inj (Option.some.inj heq)
    rw [if_pos hu]
    simp [Except.map]

theorem parseFr_integer (X : List Nat) (n : Int) (r : List Nat)
    (h : readDecimal X = .ok (n, r)) : parseFr (58 :: X) = .ok (.integer n, r) := by
  rw [parseFr, parseFrame.eq_def]
  norm_num
  split
  · rename_i e heq
    rw [h] at heq
    cases heq
  · rename_i n2 r2 heq
    rw [h] at heq
    obtain ⟨rfl, rfl⟩ := Prod.mk.inj (Except.ok.inj heq)
    simp [Except.map]

theorem parseFr_bulk_null (X r : List Nat) (h : readDecimal X = .ok (-1, r)) :
    parseFr (36 :: X) = .ok (.null, r) := by
  rw [parseFr, parseFrame.eq_def]
  norm_num
  split
  · rename_i e heq
    rw [h] at heq
    cases heq
  · rename_i len r2 heq
    rw [h] at heq
    obtain ⟨h2a, rfl⟩ := Prod.mk.inj (Except.ok.inj heq)
    rw [if_pos h2a.symm]
    simp [Except.map]

theorem parseFr_bulk_ok (X : List Nat) (len : Int) (r : List Nat)
    (h : readDecimal X = .ok (len, r)) (h0 : 0 ≤ len)
    (hlen : len.toNat + 2 ≤ r.length) :
    parseFr (36 :: X) = .ok (.bulk (r.take len.toNat), (r.drop len.toNat).drop 2) := by
  rw [parseFr, parseFrame.eq_def]
  norm_num
  split
  · rename_i e heq
    rw [h] at heq
    cases heq
  · rename_i len2 r2 heq
    rw [h] at heq
    obtain ⟨rfl, rfl⟩ := Prod.mk.inj (Except.ok.inj heq)
    rw [if_neg (by omega), if_neg (by omega), if_pos hlen]
    simp [Except.map]

theorem parseNFr_zero (b : List Nat) : parseNFr 0 b = .ok ([], b) := by
  rw [parseNFr, parseN]
  simp [Except.map]

theorem parseNFr_succ (n : Nat) (b r r2 : List Nat) (f : Frame) (fs : List Frame)
    (h1 : parseFr b = .ok (f, r)) (h2 : parseNFr n r = .ok (fs, r2)) :
    parseNFr (n + 1) b = .ok (f :: fs, r2) := by
  rw [parseNFr, parseN]
  rw [parseFr] at h1
  rcases hP : parseFrame b with e | ⟨f2, rr, hr⟩
  · rw [hP] at h1
    simp [Except.map] at h1
  · rw [hP] at h1
    simp only [Except.map] at h1
    obtain ⟨rfl, rfl⟩ := Prod.mk.inj (Except.ok.inj h1)
    dsimp only
    rw [parseNFr] at h2
    rcases hN : parseN n rr with e2 | ⟨fs2, rr2, hr2⟩
    · rw [hN] at h2
      simp [Except.map] at h2
    · rw [hN] at h2
      simp only [Except.map] at h2
      obtain ⟨rfl, rfl⟩ := Prod.mk.inj (Except.ok.inj h2)
      simp [Except.map]

theorem parseFr_array_ok (X : List Nat) (cnt : Int) (r : List Nat) (fs : List Frame)
    (r2 : List Nat) (h : readDecimal X = .ok (cnt, r)) (h1 : cnt ≠ -1)
    (h0 : ¬cnt < 0) (hN : parseNFr cnt.toNat r = .ok (fs, r2)) :
    parseFr (42 :: X) = .ok (.array fs, r2) := by
  rw [parseFr, parseFrame.eq_def]
  norm_num
  split
  · rename_i e heq
    rw [h] at heq
    cases heq
  · rename_i cnt2 r3 heq
    rw [h] at heq
    obtain ⟨rfl, rfl⟩ := Prod.mk.inj (Except.ok.inj heq)
    rw [if_neg h1, if_neg h0]
    rw [parseNFr] at hN
    rcases hP : parseN cnt.toNat r with e2 | ⟨fs2, rr2, hr2⟩
    · rw [hP] at hN
      simp [Except.map] at hN
    · rw [hP] at hN
      simp only [Except.map] at hN
      obtain ⟨rfl, rfl⟩ := Prod.mk.inj (Except.ok.inj hN)
      simp [Except.map]

theorem not_mem_of_contains_false {s : List Nat} {a : Nat}
    (h : s.contains a = false) : a ∉ s := by
  simp at h
  exact h

theorem wf_simple_parts (s : RStr) (h : Frame.wf (.simple s) = true) :
    13 ∉ s ∧ 10 ∉ s ∧ utf8Valid s = true := by
  rw [Frame.wf] at h
  simp only [Bool.and_eq_true, Bool.not_eq_true'] at h
  exact ⟨not_mem_of_contains_false h.1.1.2, not_mem_of_contains_false h.1.2, h.2⟩

theorem wf_errFrame_parts (s : RStr) (h : Frame.wf (.error s) = true) :
    13 ∉ s ∧ 10 ∉ s ∧ utf8Valid s = true := by
  rw [Frame.wf] at h
  simp only [Bool.and_eq_true, Bool.not_eq_true'] at h
  exact ⟨not_mem_of_contains_false h.1.1.2, not_mem_of_contains_false h.1.2, h.2⟩

theorem wf_integer_parts (n : Int) (h : Frame.wf (.integer n) = true) :
    -(2 ^ 63) ≤ n ∧ n ≤ 2 ^ 63 - 1 := by
  rw [Frame.wf] at h
  simp only [Bool.and_eq_true, decide_eq_true_eq] at h
  exact h

theorem wf_bulk_parts (b : RStr) (h : Frame.wf (.bulk b) = true) :
    ((b.length : Int)) ≤ 2 ^ 63 - 1 := by
  rw [Frame.wf] at h
  simp only [Bool.and_eq_true, decide_eq_true_eq] at h
  exact h.2

theorem wf_array_parts (items : List Frame) (h : Frame.wf (.array items) = true) :
    ((items.length : Int)) ≤ 2 ^ 63 - 1 ∧ Frame.wfList items = true := by
  rw [Frame.wf] at h
  simp only [Bool.and_eq_true, decide_eq_true_eq] at h
  exact h

theorem wfList_parts (f : Frame) (fs : List Frame)
    (h : Frame.wfList (f :: fs) = true) : f.wf = true ∧ Frame.wfList fs = true := by
  rw [Frame.wfList] at h
  simpa only [Bool.and_eq_true] using h

/-- Length bookkeeping: drop the payload-and-CRLF prefix. -/
theorem drop_payload (d rest : List Nat) :
    (d ++ 13 :: 10 :: rest).drop (d.length + 2) = rest := by
  have h1 : d ++ 13 :: 10 :: rest = (d ++ [13, 10]) ++ rest := by simp
  rw [h1]
  have h2 : (d ++ [13, 10]).length = d.length + 2 := by simp
  rw [← h2]
  exact List.drop_left _ _

mutual

/-- `check_complete` accepts every encoded well-formed frame, consuming
exactly its encoding. -/
theorem checkB_encode : (f : Frame) → f.wf = true → (rest : List Nat) →
    checkB (encodeFrame f ++ rest) = .ok rest
  | .simple s, hwf, rest => by
    obtain ⟨h13, _, _⟩ := wf_simple_parts s hwf
    have henc : encodeFrame (.simple s) ++ rest = 43 :: (s ++ 13 :: 10 :: rest) := by
      rw [encodeFrame]; simp
    rw [henc]
    exact checkB_line 43 _ s rest (Or.inl rfl) (readLine_append s rest h13)
  | .error s, hwf, rest => by
    obtain ⟨h13, _, _⟩ := wf_errFrame_parts s hwf
    have henc : encodeFrame (.error s) ++ rest = 45 :: (s ++ 13 :: 10 :: rest) := by
      rw [encodeFrame]; simp
    rw [henc]
    exact checkB_line 45 _ s rest (Or.inr (Or.inl rfl)) (readLine_append s rest h13)
  | .integer n, hwf, rest => by
    obtain ⟨h1, h2⟩ := wf_integer_parts n hwf
    have henc : encodeFrame (.integer n) ++ rest =
        58 :: (intToDecimal n ++ 13 :: 10 :: rest) := by
      rw [encodeFrame]; simp
    rw [henc]
    exact checkB_line 58 _ (intToDecimal n) rest (Or.inr (Or.inr rfl))
      (readLine_append _ rest (not13_intToDecimal n))
  | .bulk d, hwf, rest => by
    have hlen := wf_bulk_parts d hwf
    have henc : encodeFrame (.bulk d) ++ rest =
        36 :: (digitsOf d.length ++ 13 :: 10 :: (d ++ 13 :: 10 :: rest)) := by
      rw [encodeFrame]; simp
    rw [henc]
    rw [checkB_bulk_ok _ _ _ (readDecimal_nat d.length _ hlen) (by omega)
      (by rw [Int.toNat_natCast]; simp)]
    rw [Int.toNat_natCast, drop_payload]
  | .null, _, rest => by
    have henc : encodeFrame .null ++ rest = 36 :: ([45, 49] ++ 13 :: 10 :: rest) := rfl
    rw [henc]
    refine checkB_bulk_null _ _ ?_
    rw [readDecimal, readLine_append [45, 49] rest (by decide)]
    dsimp only
    rw [if_pos (by decide)]
    rw [show parseI64 [45, 49] = some (-1) from by decide]
  | .array items, hwf, rest => by
    obtain ⟨hlen, hwl⟩ := wf_array_parts items hwf
    have henc : encodeFrame (.array items) ++ rest =
        42 :: (digitsOf items.length ++ 13 :: 10 :: (encodeFrames items ++ rest)) := by
      rw [encodeFrame]; simp
    rw [henc]
    rw [checkB_array_go _ _ _ (readDecimal_nat items.length _ hlen) (by omega)]
    rw [Int.toNat_natCast]
    exact checkNB_encode items hwl rest

/-- `check_complete` run `fs.length` times over the concatenated encodings. -/
theorem checkNB_encode : (fs : List Frame) → Frame.wfList fs = true → (rest : List Nat) →
    checkNB fs.length (encodeFrames fs ++ rest) = .ok rest
  | [], _, rest => by
    rw [encodeFrames]
    simp only [List.nil_append, List.length_nil]
    exact checkNB_zero rest
  | f :: fs, hwf, rest => by
    obtain ⟨h1, h2⟩ := wfList_parts f fs hwf
    have henc : encodeFrames (f :: fs) ++ rest =
        encodeFrame f ++ (encodeFrames fs ++ rest) := by
      rw [encodeFrames]; simp
    rw [henc, List.length_cons]
    rw [checkNB_succ_ok _ _ _ (checkB_encode f h1 (encodeFrames fs ++ rest))]
    exact checkNB_encode fs h2 rest

end

mutual

/-- `parse_frame` reconstructs every encoded well-formed frame. -/
theorem parseFr_encode : (f : Frame) → f.wf = true → (rest : List Nat) →
    parseFr (encodeFrame f ++ rest) = .ok (f, rest)
  | .simple s, hwf, rest => by
    obtain ⟨h13, _, hu⟩ := wf_simple_parts s hwf
    have henc : encodeFrame (.simple s) ++ rest = 43 :: (s ++ 13 :: 10 :: rest) := by
      rw [encodeFrame]; simp
    rw [henc]
    exact parseFr_simple _ s rest (readLine_append s rest h13) hu
  | .error s, hwf, rest => by
    obtain ⟨h13, _, hu⟩ := wf_errFrame_parts s hwf
    have henc : encodeFrame (.error s) ++ rest = 45 :: (s ++ 13 :: 10 :: rest) := by
      rw [encodeFrame]; simp
    rw [henc]
    exact parseFr_errFrame _ s rest (readLine_append s rest h13) hu
  | .integer n, hwf, rest => by
    obtain ⟨h1, h2⟩ := wf_integer_parts n hwf
    have henc : encodeFrame (.integer n) ++ rest =
        58 :: (intToDecimal n ++ 13 :: 10 :: rest) := by
      rw [encodeFrame]; simp
    rw [henc]
    exact parseFr_integer _ n rest (readDecimal_int n rest h1 h2)
  | .bulk d, hwf, rest => by
    have hlen := wf_bulk_parts d hwf
    have henc : encodeFrame (.bulk d) ++ rest =
        36 :: (digitsOf d.length ++ 13 :: 10 :: (d ++ 13 :: 10 :: rest)) := by
      rw [encodeFrame]; simp
    rw [henc]
    rw [parseFr_bulk_ok _ _ _ (readDecimal_nat d.length _ hlen) (by omega)
      (by rw [Int.toNat_natCast]; simp)]
    rw [Int.toNat_natCast]
    have ht : (d ++ 13 :: 10 :: rest).take d.length = d := by
      simpa using List.take_left d (13 :: 10 :: rest)
    have hd : (d ++ 13 :: 10 :: rest).drop d.length = 13 :: 10 :: rest := by
      simpa using List.drop_left d (13 :: 10 :: rest)
    rw [ht, hd]
    rfl
  | .null, _, rest => by
    have henc : encodeFrame .null ++ rest = 36 :: ([45, 49] ++ 13 :: 10 :: rest) := rfl
    rw [henc]
    refine parseFr_bulk_null _ _ ?_
    rw [readDecimal, readLine_append [45, 49] rest (by decide)]
    dsimp only
    rw [if_pos (by decide)]
    rw [show parseI64 [45, 49] = some (-1) from by decide]
  | .array items, hwf, rest => by
    obtain ⟨hlen, hwl⟩ := wf_array_parts items hwf
    have henc : encodeFrame (.array items) ++ rest =
        42 :: (digitsOf items.length ++ 13 :: 10 :: (encodeFrames items ++ rest)) := by
      rw [encodeFrame]; simp
    rw [henc]
    refine parseFr_array_ok _ _ _ items rest (readDecimal_nat items.length _ hlen)
      (by omega) (by omega) ?_
    rw [Int.toNat_natCast]
    exact parseNFr_encode items hwl rest

/-- `parse_frame` run `fs.length` times over the concatenated encodings. -/
theorem parseNFr_encode : (fs : List Frame) → Frame.wfList fs = true → (rest : List Nat) →
    parseNFr fs.length (encodeFrames fs ++ rest) = .ok (fs, rest)
  | [], _, rest => by
    rw [encodeFrames]
    simp only [List.nil_append, List.length_nil]
    exact parseNFr_zero rest
  | f :: fs, hwf, rest => by
    obtain ⟨h1, h2⟩ := wfList_parts f fs hwf
    have henc : encodeFrames (f :: fs) ++ rest =
        encodeFrame f ++ (encodeFrames fs ++ rest) := by
      rw [encodeFrames]; simp
    rw [henc, List.length_cons]
    exact parseNFr_succ fs.length _ _ rest f fs
      (parseFr_encode f h1 (encodeFrames fs ++ rest))
      (parseNFr_encode fs h2 rest)

end

/-! ## Claim C7: codec round-trip -/

/-- C7: serializing a well-formed frame with `Aof::write_frame_recursive` and
decoding the produced bytes (with arbitrary trailing bytes behind them) via
`Frame::parse` yields exactly that frame and consumes exactly the encoded
bytes from the front of the buffer (`Null` encodes as `$-1` and decodes back
to `Null`).  `Frame.wf` is the representation invariant of frames the Rust
program builds: `Simple`/`Error` texts are CR/LF-free valid UTF-8 as the
claim requires, and integers/lengths fit their machine types. -/
theorem c7_codec_roundtrip (f : Frame) (hwf : f.wf = true) (rest : List Nat) :
    parseBuf (encodeFrame f ++ rest) = (.frame f rest, rest) := by
  rw [parseBuf]
  rcases hC : checkComplete (encodeFrame f ++ rest) with e | ⟨r, hr⟩
  · exfalso
    have h := checkB_encode f hwf rest
    rw [checkB, hC] at h
    simp [Except.map] at h
  · have h := checkB_encode f hwf rest
    rw [checkB, hC] at h
    simp only [Except.map] at h
    have hval : r = rest := Except.ok.inj h
    dsimp only
    rw [hval]
    rcases hP : parseFrame (encodeFrame f ++ rest) with e2 | ⟨f2, r2, hr2⟩
    · exfalso
      have h2 := parseFr_encode f hwf rest
      rw [parseFr, hP] at h2
      simp [Except.map] at h2
    · have h2 := parseFr_encode f hwf rest
      rw [parseFr, hP] at h2
      simp only [Except.map] at h2
      have h3 := Prod.mk.inj (Except.ok.inj h2)
      dsimp only
      rw [h3.1]

/-- C7 witness: round trip of a concrete nested frame with binary bulk
payload, negative integer, Null and a Simple text, followed by a trailing
byte. -/
theorem c7_codec_roundtrip_witness :
    parseBuf (encodeFrame
        (.array [.bulk [0, 255, 13, 10], .integer (-42), .null, .simple (ascii "OK")])
      ++ [99]) =
    (.frame (.array [.bulk [0, 255, 13, 10], .integer (-42), .null,
        .simple (ascii "OK")]) [99], [99]) :=
  c7_codec_roundtrip
    (.array [.bulk [0, 255, 13, 10], .integer (-42), .null, .simple (ascii "OK")])
    (by decide) [99]

theorem findCrlf_cons_red (a : Nat) (rest : List Nat)
    (h : ¬(a = 13 ∧ ∃ tl, rest = 10 :: tl)) :
    findCrlf (a :: rest) = (findCrlf rest).map (· + 1) := by
  rw [findCrlf.eq_def]
  split
  · rename_i tl heq
    exact absurd ⟨(List.cons.inj heq).1, tl, (List.cons.inj heq).2⟩ h
  · rename_i x xs heq
    rw [(List.cons.inj heq).2]
  · rename_i heq
    exact absurd heq (by simp)

/-- The first CRLF of `l ++ CRLF ++ r` is at `l.length` when `l` holds no
CRLF pair at all. -/
theorem findCrlf_append_noPair : ∀ l r : List Nat, findCrlf l = none →
    findCrlf (l ++ 13 :: 10 :: r) = some l.length := by
  intro l
  induction l with
  | nil => intro r _; rfl
  | cons a tl ih =>
    intro r hnone
    have hsplit : ¬(a = 13 ∧ ∃ tl2, tl = 10 :: tl2) := by
      rintro ⟨rfl, tl2, rfl⟩
      have : findCrlf (13 :: 10 :: tl2) = some 0 := rfl
      rw [this] at hnone
      cases hnone
    have htl : findCrlf tl = none := by
      rcases hf : findCrlf tl with _ | j
      · rfl
      · rw [findCrlf_cons_red a tl hsplit, hf] at hnone
        cases hnone
    have hsplit2 : ¬(a = 13 ∧ ∃ tl2, tl ++ 13 :: 10 :: r = 10 :: tl2) := by
      rintro ⟨rfl, tl2, heq2⟩
      cases htl2 : tl with
      | nil =>
        subst htl2
        simp at heq2
      | cons x xs =>
        subst htl2
        have hx : x = 10 := by
          have := (List.cons.inj heq2).1
          simpa using this
        subst hx
        exact hsplit ⟨rfl, xs, rfl⟩
    rw [List.cons_append, findCrlf_cons_red a _ hsplit2, ih r htl]
    rfl

/-- `read_line` on a no-pair line with any continuation. -/
theorem readLine_append_noPair (l r : List Nat) (h : findCrlf l = none) :
    readLine (l ++ 13 :: 10 :: r) = some (l, r) := by
  rw [readLine, findCrlf_append_noPair l r h]
  dsimp only
  have ht : (l ++ 13 :: 10 :: r).take l.length = l := by
    simpa using List.take_left l (13 :: 10 :: r)
  rw [ht, drop_payload]

/-- The scanned-over part of a successful CRLF search holds no pair. -/
theorem findCrlf_take_noPair : ∀ b i, findCrlf b = some i → findCrlf (b.take i) = none := by
  intro b
  induction b using findCrlf.induct with
  | case1 rest =>
    intro i h
    have h0 : i = 0 := by
      have : findCrlf (13 :: 10 :: rest) = some 0 := rfl
      rw [this] at h
      exact (Option.some.inj h).symm
    subst h0
    rfl
  | case2 a rest hne ih =>
    intro i h
    have hsplit : ¬(a = 13 ∧ ∃ tl, rest = 10 :: tl) := by
      rintro ⟨rfl, tl, rfl⟩
      exact hne tl rfl rfl
    rw [findCrlf_cons_red a rest hsplit] at h
    rcases hr : findCrlf rest with _ | j
    · rw [hr] at h; cases h
    · rw [hr] at h
      simp only [Option.map] at h
      have hi : i = j + 1 := (Option.some.inj h).symm
      subst hi
      rw [List.take_succ_cons]
      have hj := ih j hr
      have hsplit2 : ¬(a = 13 ∧ ∃ tl, rest.take j = 10 :: tl) := by
        rintro ⟨rfl, tl, heq⟩
        cases hrest : rest with
        | nil =>
          subst hrest
          simp at heq
        | cons x xs =>
          subst hrest
          rcases hjj : j with _ | j2
          · subst hjj
            simp at heq
          · subst hjj
            rw [List.take_succ_cons] at heq
            have hx : x = 10 := (List.cons.inj heq).1
            subst hx
            exact hne xs rfl rfl
      rw [findCrlf_cons_red a _ hsplit2, hj]
      rfl
  | case3 =>
    intro i h
    have : findCrlf ([] : List Nat) = none := rfl
    rw [this] at h
    cases h

/-- Inversion of `read_line`. -/
theorem readLine_inv {X l r : List Nat} (h : readLine X = some (l, r)) :
    X = l ++ 13 :: 10 :: r ∧ findCrlf l = none := by
  rw [readLine] at h
  rcases hf : findCrlf X with _ | i
  · rw [hf] at h; cases h
  · rw [hf] at h
    dsimp only at h
    obtain ⟨rfl, rfl⟩ := Prod.mk.inj (Option.some.inj h)
    exact ⟨findCrlf_decomp X i hf, findCrlf_take_noPair X i hf⟩

/-- `read_decimal` on a no-pair decoded line with any continuation. -/
theorem readDecimal_append_noPair (l r : List Nat) (v : Int) (h : findCrlf l = none)
    (hu : utf8Valid l = true) (hp : parseI64 l = some v) :
    readDecimal (l ++ 13 :: 10 :: r) = .ok (v, r) := by
  rw [readDecimal, readLine_append_noPair l r h]
  dsimp only
  rw [if_pos hu, hp]

/-- Inversion of `read_decimal`. -/
theorem readDecimal_inv {X : List Nat} {v : Int} {r : List Nat}
    (h : readDecimal X = .ok (v, r)) :
    ∃ l, X = l ++ 13 :: 10 :: r ∧ findCrlf l = none ∧ utf8Valid l = true ∧
      parseI64 l = some v := by
  rw [readDecimal] at h
  rcases hl : readLine X with _ | ⟨line, rest⟩
  · rw [hl] at h; cases h
  · rw [hl] at h
    dsimp only at h
    by_cases hu : utf8Valid line = true
    · rw [if_pos hu] at h
      rcases hp : parseI64 line with _ | n
      · rw [hp] at h; cases h
      · rw [hp] at h
        obtain ⟨rfl, rfl⟩ := Prod.mk.inj (Except.ok.inj h)
        obtain ⟨hdec, hnone⟩ := readLine_inv hl
        exact ⟨line, hdec, hnone, hu, hp⟩
    · rw [if_neg hu] at h
      cases h

theorem checkB_array_null (X r : List Nat) (h : readDecimal X = .ok (-1, r)) :
    checkB (42 :: X) = .ok r := by
  rw [checkB, checkComplete.eq_def]
  norm_num
  split
  · rename_i e2 heq
    rw [h] at heq
    cases heq
  · rename_i cnt r2 heq
    rw [h] at heq
    obtain ⟨h2a, rfl⟩ := Prod.mk.inj (Except.ok.inj heq)
    rw [if_pos h2a.symm]
    simp [Except.map]

theorem parseFr_simple_invalid (X l r : List Nat) (h : readLine X = some (l, r))
    (hu : utf8Valid l = false) : parseFr (43 :: X) = .error .invalid := by
  rw [parseFr, parseFrame.eq_def]
  norm_num
  split
  · rename_i heq
    rw [h] at heq
    cases heq
  · rename_i l2 r2 heq
    rw [h] at heq
    obtain ⟨rfl, rfl⟩ := Prod.mk.inj (Option.some.inj heq)
    rw [if_neg (by simp [hu])]
    simp [Except.map]

theorem parseFr_errFrame_invalid (X l r : List Nat) (h : readLine X = some (l, r))
    (hu : utf8Valid l = false) : parseFr (45 :: X) = .error .invalid := by
  rw [parseFr, parseFrame.eq_def]
  norm_num
  split
  · rename_i heq
    rw [h] at heq
    cases heq
  · rename_i l2 r2 heq
    rw [h] at heq
    obtain ⟨rfl, rfl⟩ := Prod.mk.inj (Option.some.inj heq)
    rw [if_neg (by simp [hu])]
    simp [Except.map]

theorem parseFr_int_err (X : List Nat) (e : PErr) (h : readDecimal X = .error e) :
    parseFr (58 :: X) = .error e := by
  rw [parseFr, parseFrame.eq_def]
  norm_num
  split
  · rename_i e2 heq
    rw [h] at heq
    rw [← Except.error.inj heq]
    simp [Except.map]
  · rename_i n r heq
    rw [h] at heq
    cases heq

theorem parseFr_array_null (X r : List Nat) (h : readDecimal X = .ok (-1, r)) :
    parseFr (42 :: X) = .ok (.null, r) := by
  rw [parseFr, parseFrame.eq_def]
  norm_num
  split
  · rename_i e heq
    rw [h] at heq
    cases heq
  · rename_i cnt r2 heq
    rw [h] at heq
    obtain ⟨h2a, rfl⟩ := Prod.mk.inj (Except.ok.inj heq)
    rw [if_pos h2a.symm]
    simp [Except.map]

theorem parseFr_array_panic (X : List Nat) (cnt : Int) (r : List Nat)
    (h : readDecimal X = .ok (cnt, r)) (h1 : cnt ≠ -1) (h0 : cnt < 0) :
    parseFr (42 :: X) = .error .panicked := by
  rw [parseFr, parseFrame.eq_def]
  norm_num
  split
  · rename_i e heq
    rw [h] at heq
    cases heq
  · rename_i cnt2 r2 heq
    rw [h] at heq
    obtain ⟨rfl, rfl⟩ := Prod.mk.inj (Except.ok.inj heq)
    rw [if_neg h1, if_pos h0]
    simp [Except.map]

/-- Inversion of a successful `check_complete` scan: which branch produced it. -/
theorem checkB_ok_inv : ∀ {b r : List Nat}, checkB b = .ok r →
    ∃ t X, b = t :: X ∧
      (((t = 43 ∨ t = 45 ∨ t = 58) ∧ ∃ l, readLine X = some (l, r)) ∨
       (t = 36 ∧ ∃ len r1, readDecimal X = .ok (len, r1) ∧
          ((len = -1 ∧ r1 = r) ∨
           (0 ≤ len ∧ len.toNat + 2 ≤ r1.length ∧ r = r1.drop (len.toNat + 2)))) ∨
       (t = 42 ∧ ∃ cnt r1, readDecimal X = .ok (cnt, r1) ∧
          ((cnt = -1 ∧ r1 = r) ∨ (cnt ≠ -1 ∧ checkNB cnt.toNat r1 = .ok r)))) := by
  intro b r h
  match b with
  | [] =>
    rw [checkB, checkComplete.eq_def] at h
    simp [Except.map] at h
  | t :: X =>
    refine ⟨t, X, rfl, ?_⟩
    rw [checkB, checkComplete.eq_def] at h
    dsimp only at h
    by_cases ht : t = 43 ∨ t = 45 ∨ t = 58
    · rw [if_pos ht] at h
      left
      refine ⟨ht, ?_⟩
      split at h
      · simp [Except.map] at h
      · rename_i l r1 heq
        simp only [Except.map] at h
        have hr : r1 = r := Except.ok.inj h
        subst hr
        exact ⟨l, heq⟩
    · rw [if_neg ht] at h
      by_cases h36 : t = 36
      · rw [if_pos h36] at h
        right; left
        refine ⟨h36, ?_⟩
        split at h
        · simp [Except.map] at h
        · rename_i len r1 heq
          refine ⟨len, r1, heq, ?_⟩
          by_cases hm1 : len = -1
          · rw [if_pos hm1] at h
            simp only [Except.map] at h
            exact Or.inl ⟨hm1, Except.ok.inj h⟩
          · rw [if_neg hm1] at h
            by_cases hneg : len < 0
            · rw [if_pos hneg] at h
              simp [Except.map] at h
            · rw [if_neg hneg] at h
              by_cases hlen : len.toNat + 2 ≤ r1.length
              · rw [if_pos hlen] at h
                simp only [Except.map] at h
                exact Or.inr ⟨by omega, hlen, (Except.ok.inj h).symm⟩
              · rw [if_neg hlen] at h
                simp [Except.map] at h
      · rw [if_neg h36] at h
        by_cases h42 : t = 42
        · rw [if_pos h42] at h
          right; right
          refine ⟨h42, ?_⟩
          split at h
          · simp [Except.map] at h
          · rename_i cnt r1 heq
            refine ⟨cnt, r1, heq, ?_⟩
            by_cases hm1 : cnt = -1
            · rw [if_pos hm1] at h
              simp only [Except.map] at h
              exact Or.inl ⟨hm1, Except.ok.inj h⟩
            · rw [if_neg hm1] at h
              split at h
              · simp [Except.map] at h
              · rename_i r2 hr2 heqN
                simp only [Except.map] at h
                have hr : r2 = r := Except.ok.inj h
                subst hr
                refine Or.inr ⟨hm1, ?_⟩
                rw [checkNB, heqN]
                simp [Except.map]
        · rw [if_neg h42] at h
          simp [Except.map] at h

/-- Inversion of one step of the `check_complete` count loop. -/
theorem checkNB_succ_inv {n : Nat} {b r : List Nat} (h : checkNB (n + 1) b = .ok r) :
    ∃ r1, checkB b = .ok r1 ∧ checkNB n r1 = .ok r := by
  rw [checkNB, checkN] at h
  rcases hC : checkComplete b with e | ⟨r1, h1⟩
  · rw [hC] at h
    simp [Except.map] at h
  · rw [hC] at h
    dsimp only at h
    rcases hN : checkN n r1 with e2 | ⟨r2, h2⟩
    · rw [hN] at h
      simp [Except.map] at h
    · rw [hN] at h
      simp only [Except.map] at h
      have hr : r2 = r := Except.ok.inj h
      subst hr
      refine ⟨r1, ?_, ?_⟩
      · rw [checkB, hC]; simp [Except.map]
      · rw [checkNB, hN]; simp [Except.map]

/-- Inversion of a successful array-element parse. -/
theorem parseFr_array_inv {X : List Nat} {cnt : Int} {r : List Nat} {f : Frame}
    {s : List Nat} (h : readDecimal X = .ok (cnt, r)) (h1 : cnt ≠ -1)
    (h0 : ¬cnt < 0) (hp : parseFr (42 :: X) = .ok (f, s)) :
    ∃ fs, f = .array fs ∧ parseNFr cnt.toNat r = .ok (fs, s) := by
  rw [parseFr, parseFrame.eq_def] at hp
  norm_num at hp
  split at hp
  · rename_i e heq
    rw [h] at heq
    cases heq
  · rename_i cnt2 r2 heq
    rw [h] at heq
    obtain ⟨rfl, rfl⟩ := Prod.mk.inj (Except.ok.inj heq)
    rw [if_neg h1, if_neg h0] at hp
    split at hp
    · simp [Except.map] at hp
    · rename_i fs r3 hr3 heqN
      simp only [Except.map] at hp
      obtain ⟨rfl, rfl⟩ := Prod.mk.inj (Except.ok.inj hp)
      refine ⟨fs, rfl, ?_⟩
      rw [parseNFr, heqN]
      simp [Except.map]

/-- Inversion of one step of the `parse_frame` count loop. -/
theorem parseNFr_succ_inv {n : Nat} {b : List Nat} {fs : List Frame} {s : List Nat}
    (h : parseNFr (n + 1) b = .ok (fs, s)) :
    ∃ f1 s1 fs1, parseFr b = .ok (f1, s1) ∧ parseNFr n s1 = .ok (fs1, s) ∧
      fs = f1 :: fs1 := by
  rw [parseNFr, parseN] at h
  rcases hP : parseFrame b with e | ⟨f1, s1, h1⟩
  · rw [hP] at h
    simp [Except.map] at h
  · rw [hP] at h
    dsimp only at h
    rcases hN : parseN n s1 with e2 | ⟨fs1, s2, h2⟩
    · rw [hN] at h
      simp [Except.map] at h
    · rw [hN] at h
      simp only [Except.map] at h
      obtain ⟨rfl, rfl⟩ := Prod.mk.inj (Except.ok.inj h)
      refine ⟨f1, s1, fs1, ?_, ?_, rfl⟩
      · rw [parseFr, hP]; simp [Except.map]
      · rw [parseNFr, hN]; simp [Except.map]

theorem readDecimal_eval {X l r : List Nat} {n : Int} (hl : readLine X = some (l, r))
    (hu : utf8Valid l = true) (hn : parseI64 l = some n) :
    readDecimal X = .ok (n, r) := by
  rw [readDecimal, hl]
  dsimp only
  rw [if_pos hu, hn]

theorem readDecimal_invalid_utf8 {X l r : List Nat} (hl : readLine X = some (l, r))
    (hu : utf8Valid l = false) : readDecimal X = .error .invalid := by
  rw [readDecimal, hl]
  dsimp only
  rw [if_neg (by simp [hu])]

theorem readDecimal_invalid_num {X l r : List Nat} (hl : readLine X = some (l, r))
    (hu : utf8Valid l = true) (hn : parseI64 l = none) :
    readDecimal X = .error .invalid := by
  rw [readDecimal, hl]
  dsimp only
  rw [if_pos hu, hn]

mutual

/-- Consumption locality of the decoder: a successful `check_complete` scan
splits the buffer into the scanned span `c` and the remainder `r`, the span
re-scans to completion under any continuation, and whenever `parse_frame`
also succeeds it stops at exactly the same remainder and yields the same
frame on the span under any continuation. -/
theorem checkB_span : (b : List Nat) → ∀ r, checkB b = .ok r →
    ∃ c, b = c ++ r ∧ (∀ t, checkB (c ++ t) = .ok t) ∧
      ∀ f s, parseFr b = .ok (f, s) →
        s = r ∧ ∀ t, parseFr (c ++ t) = .ok (f, t)
  | b => by
    intro r h
    obtain ⟨t, X, rfl, hbr⟩ := checkB_ok_inv h
    rcases hbr with ⟨ht, l, hl⟩ | ⟨rfl, len, r1, hd, hcase⟩ | ⟨rfl, cnt, r1, hd, hcase⟩
    · -- '+', '-', ':' line frames
      obtain ⟨hX, hnone⟩ := readLine_inv hl
      refine ⟨t :: (l ++ [13, 10]), by rw [hX]; simp, ?_, ?_⟩
      · intro t'
        have hm : (t :: (l ++ [13, 10])) ++ t' = t :: (l ++ 13 :: 10 :: t') := by simp
        rw [hm]
        exact checkB_line t _ l t' ht (readLine_append_noPair l t' hnone)
      · intro f s hp
        rcases ht with rfl | rfl | rfl
        · by_cases hu : utf8Valid l = true
          · rw [parseFr_simple X l r hl hu] at hp
            obtain ⟨rfl, rfl⟩ := Prod.mk.inj (Except.ok.inj hp)
            refine ⟨rfl, fun t' => ?_⟩
            have hm : (43 :: (l ++ [13, 10])) ++ t' = 43 :: (l ++ 13 :: 10 :: t') := by simp
            rw [hm]
            exact parseFr_simple _ l t' (readLine_append_noPair l t' hnone) hu
          · rw [parseFr_simple_invalid X l r hl (by simpa using hu)] at hp
            cases hp
        · by_cases hu : utf8Valid l = true
          · rw [parseFr_errFrame X l r hl hu] at hp
            obtain ⟨rfl, rfl⟩ := Prod.mk.inj (Except.ok.inj hp)
            refine ⟨rfl, fun t' => ?_⟩
            have hm : (45 :: (l ++ [13, 10])) ++ t' = 45 :: (l ++ 13 :: 10 :: t') := by simp
            rw [hm]
            exact parseFr_errFrame _ l t' (readLine_append_noPair l t' hnone) hu
          · rw [parseFr_errFrame_invalid X l r hl (by simpa using hu)] at hp
            cases hp
        · by_cases hu : utf8Valid l = true
          · rcases hp64 : parseI64 l with _ | n
            · rw [parseFr_int_err X _ (readDecimal_invalid_num hl hu hp64)] at hp
              cases hp
            · rw [parseFr_integer X n r (readDecimal_eval hl hu hp64)] at hp
              obtain ⟨rfl, rfl⟩ := Prod.mk.inj (Except.ok.inj hp)
              refine ⟨rfl, fun t' => ?_⟩
              have hm : (58 :: (l ++ [13, 10])) ++ t' = 58 :: (l ++ 13 :: 10 :: t') := by
                simp
              rw [hm]
              exact parseFr_integer _ n t' (readDecimal_append_noPair l t' n hnone hu hp64)
          · rw [parseFr_int_err X _ (readDecimal_invalid_utf8 hl (by simpa using hu))] at hp
            cases hp
    · -- '$' bulk frames
      obtain ⟨line, hX, hnone, hu, hp64⟩ := readDecimal_inv hd
      rcases hcase with ⟨rfl, rfl⟩ | ⟨h0, hlen, rfl⟩
      · -- null bulk
        refine ⟨36 :: (line ++ [13, 10]), by rw [hX]; simp, ?_, ?_⟩
        · intro t'
          have hm : (36 :: (line ++ [13, 10])) ++ t' = 36 :: (line ++ 13 :: 10 :: t') := by
            simp
          rw [hm]
          exact checkB_bulk_null _ t' (readDecimal_append_noPair line t' (-1) hnone hu hp64)
        · intro f s hp
          rw [parseFr_bulk_null X r1 hd] at hp
          obtain ⟨rfl, rfl⟩ := Prod.mk.inj (Except.ok.inj hp)
          refine ⟨rfl, fun t' => ?_⟩
          have hm : (36 :: (line ++ [13, 10])) ++ t' = 36 :: (line ++ 13 :: 10 :: t') := by
            simp
          rw [hm]
          exact parseFr_bulk_null _ t' (readDecimal_append_noPair line t' (-1) hnone hu hp64)
      · -- data bulk
        have hdlen : (r1.take (len.toNat + 2)).length = len.toNat + 2 := by
          rw [List.length_take]; omega
        refine ⟨36 :: (line ++ 13 :: 10 :: r1.take (len.toNat + 2)), ?_, ?_, ?_⟩
        · rw [hX]
          simp only [List.cons_append, List.append_assoc]
          rw [List.take_append_drop]
        · intro t'
          have hm : (36 :: (line ++ 13 :: 10 :: r1.take (len.toNat + 2))) ++ t'
              = 36 :: (line ++ 13 :: 10 :: (r1.take (len.toNat + 2) ++ t')) := by
            simp [List.append_assoc]
          rw [hm]
          have hrd := readDecimal_append_noPair line (r1.take (len.toNat + 2) ++ t') len
            hnone hu hp64
          have hlen2 : len.toNat + 2 ≤ (r1.take (len.toNat + 2) ++ t').length := by
            rw [List.length_append, hdlen]; omega
          rw [checkB_bulk_ok _ len _ hrd h0 hlen2]
          congr 1
          rw [List.drop_append_of_le_length (le_of_eq hdlen.symm)]
          rw [List.drop_eq_nil_of_le (le_of_eq hdlen), List.nil_append]
        · intro f s hp
          rw [parseFr_bulk_ok X len r1 hd h0 hlen] at hp
          obtain ⟨rfl, rfl⟩ := Prod.mk.inj (Except.ok.inj hp)
          constructor
          · rw [List.drop_drop]
          · intro t'
            have hm : (36 :: (line ++ 13 :: 10 :: r1.take (len.toNat + 2))) ++ t'
                = 36 :: (line ++ 13 :: 10 :: (r1.take (len.toNat + 2) ++ t')) := by
              simp [List.append_assoc]
            rw [hm]
            have hrd := readDecimal_append_noPair line (r1.take (len.toNat + 2) ++ t') len
              hnone hu hp64
            have hlen2 : len.toNat + 2 ≤ (r1.take (len.toNat + 2) ++ t').length := by
              rw [List.length_append, hdlen]; omega
            rw [parseFr_bulk_ok _ len _ hrd h0 hlen2]
            have e1 : (r1.take (len.toNat + 2) ++ t').take len.toNat = r1.take len.toNat := by
              rw [List.take_append_of_le_length (by rw [hdlen]; omega)]
              rw [List.take_take]
              congr 1
              omega
            have e2 : ((r1.take (len.toNat + 2) ++ t').drop len.toNat).drop 2 = t' := by
              rw [List.drop_drop, List.drop_append_of_le_length (le_of_eq hdlen.symm)]
              rw [List.drop_eq_nil_of_le (le_of_eq hdlen), List.nil_append]
            rw [e1, e2]
    · -- '*' array frames
      obtain ⟨line, hX, hnone, hu, hp64⟩ := readDecimal_inv hd
      rcases hcase with ⟨rfl, rfl⟩ | ⟨hne, hN⟩
      · -- null array
        refine ⟨42 :: (line ++ [13, 10]), by rw [hX]; simp, ?_, ?_⟩
        · intro t'
          have hm : (42 :: (line ++ [13, 10])) ++ t' = 42 :: (line ++ 13 :: 10 :: t') := by
            simp
          rw [hm]
          exact checkB_array_null _ t' (readDecimal_append_noPair line t' (-1) hnone hu hp64)
        · intro f s hp
          rw [parseFr_array_null X r1 hd] at hp
          obtain ⟨rfl, rfl⟩ := Prod.mk.inj (Except.ok.inj hp)
          refine ⟨rfl, fun t' => ?_⟩
          have hm : (42 :: (line ++ [13, 10])) ++ t' = 42 :: (line ++ 13 :: 10 :: t') := by
            simp
          rw [hm]
          exact parseFr_array_null _ t' (readDecimal_append_noPair line t' (-1) hnone hu hp64)
      · -- counted array: recurse on the element loop
        obtain ⟨c1, hr1, hD1, hP1⟩ := checkNB_span cnt.toNat r1 r hN
        refine ⟨42 :: (line ++ 13 :: 10 :: c1), ?_, ?_, ?_⟩
        · rw [hX, hr1]
          simp [List.append_assoc]
        · intro t'
          have hm : (42 :: (line ++ 13 :: 10 :: c1)) ++ t'
              = 42 :: (line ++ 13 :: 10 :: (c1 ++ t')) := by
            simp [List.append_assoc]
          rw [hm]
          have hrd := readDecimal_append_noPair line (c1 ++ t') cnt hnone hu hp64
          rw [checkB_array_go _ cnt _ hrd hne]
          exact hD1 t'
        · intro f s hp
          by_cases hneg : cnt < 0
          · rw [parseFr_array_panic X cnt r1 hd hne hneg] at hp
            cases hp
          · obtain ⟨fs, rfl, hNfr⟩ := parseFr_array_inv hd hne hneg hp
            obtain ⟨hs, hPt⟩ := hP1 fs s hNfr
            refine ⟨hs, fun t' => ?_⟩
            have hm : (42 :: (line ++ 13 :: 10 :: c1)) ++ t'
                = 42 :: (line ++ 13 :: 10 :: (c1 ++ t')) := by
              simp [List.append_assoc]
            rw [hm]
            exact parseFr_array_ok _ cnt (c1 ++ t') fs t'
              (readDecimal_append_noPair line (c1 ++ t') cnt hnone hu hp64) hne hneg (hPt t')
termination_by b => (b.length, 0)
decreasing_by
  apply Prod.Lex.left
  have hbX : b = t :: X := by assumption
  rw [hbX, hX]
  simp only [List.length_cons, List.length_append]
  omega

/-- Consumption locality of the element loop. -/
theorem checkNB_span : (n : Nat) → (b : List Nat) → ∀ r, checkNB n b = .ok r →
    ∃ c, b = c ++ r ∧ (∀ t, checkNB n (c ++ t) = .ok t) ∧
      ∀ fs s, parseNFr n b = .ok (fs, s) →
        s = r ∧ ∀ t, parseNFr n (c ++ t) = .ok (fs, t)
  | 0, b => by
    intro r h
    rw [checkNB_zero] at h
    have hr : b = r := Except.ok.inj h
    subst hr
    refine ⟨[], by simp, fun t => by simpa using checkNB_zero t, ?_⟩
    intro fs s hp
    rw [parseNFr_zero] at hp
    obtain ⟨rfl, rfl⟩ := Prod.mk.inj (Except.ok.inj hp)
    exact ⟨rfl, fun t => by simpa using parseNFr_zero t⟩
  | n + 1, b => by
    intro r h
    obtain ⟨r1, hB, hN⟩ := checkNB_succ_inv h
    obtain ⟨c1, hb, hD1, hP1⟩ := checkB_span b r1 hB
    obtain ⟨c2, hr1, hD2, hP2⟩ := checkNB_span n r1 r hN
    refine ⟨c1 ++ c2, by rw [hb, hr1, List.append_assoc], ?_, ?_⟩
    · intro t
      rw [List.append_assoc]
      rw [checkNB_succ_ok n (c1 ++ (c2 ++ t)) (c2 ++ t) (hD1 (c2 ++ t))]
      exact hD2 t
    · intro fs s hp
      obtain ⟨f1, s1, fs1, hpf, hpn, rfl⟩ := parseNFr_succ_inv hp
      obtain ⟨hs1, hPt1⟩ := hP1 f1 s1 hpf
      subst hs1
      obtain ⟨hs, hPt2⟩ := hP2 fs1 s hpn
      refine ⟨hs, fun t => ?_⟩
      rw [List.append_assoc]
      exact parseNFr_succ n (c1 ++ (c2 ++ t)) (c2 ++ t) t f1 fs1 (hPt1 (c2 ++ t)) (hPt2 t)
termination_by n b => (b.length, n + 1)
decreasing_by
  · apply Prod.Lex.right
    omega
  · rcases Nat.lt_or_ge r1.length b.length with hlt | hge
    · exact Prod.Lex.left _ _ hlt
    · have hle : r1.length ≤ b.length := by rw [hb]; simp
      have heq : r1.length = b.length := by omega
      rw [heq]
      apply Prod.Lex.right
      omega

end

theorem checkB_nil : checkB [] = .error .incomplete := by
  rw [checkB, checkComplete.eq_def]
  dsimp only
  simp [Except.map]

theorem findCrlf_none_of_no13 : ∀ l : List Nat, 13 ∉ l → findCrlf l = none := by
  intro l
  induction l with
  | nil => intro _; rfl
  | cons a tl ih =>
    intro h13
    have ha : a ≠ 13 := fun h => h13 (h ▸ List.mem_cons_self a tl)
    rw [findCrlf_cons_ne a tl ha, ih (fun h => h13 (List.mem_cons_of_mem a h))]
    rfl

theorem findCrlf_append13 : ∀ l : List Nat, 13 ∉ l → findCrlf (l ++ [13]) = none := by
  intro l
  induction l with
  | nil => intro _; rfl
  | cons a tl ih =>
    intro h13
    have ha : a ≠ 13 := fun h => h13 (h ▸ List.mem_cons_self a tl)
    rw [List.cons_append, findCrlf_cons_ne a _ ha,
      ih (fun h => h13 (List.mem_cons_of_mem a h))]
    rfl

theorem prefix_take_eq {q A : List Nat} (h : q <+: A) : q = A.take q.length := by
  obtain ⟨u, hu⟩ := h
  rw [← hu]
  exact (List.take_left q u).symm

/-- A proper prefix of an encoded line (CR-free payload plus CRLF) holds no
CRLF pair. -/
theorem prefix_line_none (l q : List Nat) (h13 : 13 ∉ l)
    (hq : q <+: l ++ [13, 10]) (hne : q ≠ l ++ [13, 10]) : findCrlf q = none := by
  have hlen : q.length ≤ l.length + 2 := by
    have := hq.length_le
    simpa using this
  have heq := prefix_take_eq hq
  rcases le_or_lt q.length l.length with hle | hgt
  · rw [heq, List.take_append_of_le_length hle]
    exact findCrlf_none_of_no13 _ (fun hm => h13 (List.take_subset _ _ hm))
  · have hq1 : q.length = l.length + 1 := by
      rcases Nat.lt_or_ge q.length (l.length + 2) with h2 | h2
      · omega
      · exfalso
        apply hne
        rw [heq]
        apply List.take_of_length_le
        simp only [List.length_append, List.length_cons, List.length_nil]
        omega
    rw [heq, hq1, List.take_append]
    have ht1 : List.take 1 [13, 10] = [13] := rfl
    rw [ht1]
    exact findCrlf_append13 l h13

/-- Split a prefix of a concatenation at the boundary. -/
theorem prefix_split (A B q : List Nat) (h : q <+: A ++ B) :
    (q <+: A ∧ q ≠ A) ∨ ∃ q2, q = A ++ q2 ∧ q2 <+: B := by
  rcases Nat.lt_or_ge q.length A.length with hlt | hge
  · left
    constructor
    · have heq := prefix_take_eq h
      rw [heq, List.take_append_of_le_length (le_of_lt hlt)]
      exact List.take_prefix _ _
    · intro hqa
      rw [hqa] at hlt
      omega
  · right
    refine ⟨B.take (q.length - A.length), ?_, List.take_prefix _ _⟩
    have heq := prefix_take_eq h
    have h2 : q.length = A.length + (q.length - A.length) := by omega
    conv_lhs => rw [heq, h2]
    rw [List.take_append]

theorem readLine_none {q : List Nat} (h : findCrlf q = none) : readLine q = none := by
  rw [readLine, h]

theorem readDecimal_incomplete {q : List Nat} (h : readLine q = none) :
    readDecimal q = .error .incomplete := by
  rw [readDecimal, h]

mutual

/-- A proper prefix of a well-formed encoding scans as Incomplete. -/
theorem checkB_properPre : (f : Frame) → f.wf = true → ∀ p, p <+: encodeFrame f →
    p ≠ encodeFrame f → checkB p = .error .incomplete
  | .simple s, hwf, p, hp, hne => by
    obtain ⟨h13, _, _⟩ := wf_simple_parts s hwf
    rw [encodeFrame] at hp hne
    rcases p with _ | ⟨t, q⟩
    · exact checkB_nil
    · obtain ⟨rfl, hq⟩ := List.cons_prefix_cons.mp hp
      have hqne : q ≠ s ++ [13, 10] := fun h => hne (by rw [h])
      exact checkB_line_incomplete 43 q (Or.inl rfl)
        (readLine_none (prefix_line_none s q h13 hq hqne))
  | .error s, hwf, p, hp, hne => by
    obtain ⟨h13, _, _⟩ := wf_errFrame_parts s hwf
    rw [encodeFrame] at hp hne
    rcases p with _ | ⟨t, q⟩
    · exact checkB_nil
    · obtain ⟨rfl, hq⟩ := List.cons_prefix_cons.mp hp
      have hqne : q ≠ s ++ [13, 10] := fun h => hne (by rw [h])
      exact checkB_line_incomplete 45 q (Or.inr (Or.inl rfl))
        (readLine_none (prefix_line_none s q h13 hq hqne))
  | .integer n, _, p, hp, hne => by
    rw [encodeFrame] at hp hne
    rcases p with _ | ⟨t, q⟩
    · exact checkB_nil
    · obtain ⟨rfl, hq⟩ := List.cons_prefix_cons.mp hp
      have hqne : q ≠ intToDecimal n ++ [13, 10] := fun h => hne (by rw [h])
      exact checkB_line_incomplete 58 q (Or.inr (Or.inr rfl))
        (readLine_none (prefix_line_none _ q (not13_intToDecimal n) hq hqne))
  | .null, _, p, hp, hne => by
    rw [show encodeFrame .null = 36 :: ([45, 49] ++ [13, 10]) from rfl] at hp hne
    rcases p with _ | ⟨t, q⟩
    · exact checkB_nil
    · obtain ⟨rfl, hq⟩ := List.cons_prefix_cons.mp hp
      have hqne : q ≠ [45, 49] ++ [13, 10] := fun h => hne (by rw [h])
      exact checkB_bulk_err q .incomplete
        (readDecimal_incomplete (readLine_none
          (prefix_line_none [45, 49] q (by decide) hq hqne)))
  | .bulk d, hwf, p, hp, hne => by
    have hlen := wf_bulk_parts d hwf
    have henc : encodeFrame (.bulk d) =
        36 :: ((digitsOf d.length ++ [13, 10]) ++ (d ++ [13, 10])) := by
      rw [encodeFrame]; simp
    rw [henc] at hp hne
    rcases p with _ | ⟨t, q⟩
    · exact checkB_nil
    · obtain ⟨rfl, hq⟩ := List.cons_prefix_cons.mp hp
      have hqne : q ≠ (digitsOf d.length ++ [13, 10]) ++ (d ++ [13, 10]) :=
        fun h => hne (by rw [h])
      rcases prefix_split _ _ q hq with ⟨hpre, hne2⟩ | ⟨q2, rfl, hpre⟩
      · exact checkB_bulk_err q .incomplete
          (readDecimal_incomplete (readLine_none
            (prefix_line_none _ q (not13_digitsOf _) hpre hne2)))
      · have hne3 : q2 ≠ d ++ [13, 10] := fun h => hqne (by rw [h])
        have hrd : readDecimal ((digitsOf d.length ++ [13, 10]) ++ q2)
            = .ok ((d.length : Int), q2) := by
          have hform : (digitsOf d.length ++ [13, 10]) ++ q2
              = digitsOf d.length ++ 13 :: 10 :: q2 := by simp
          rw [hform]
          exact readDecimal_nat d.length q2 hlen
        have hq2len : q2.length < d.length + 2 := by
          have hle := hpre.length_le
          simp only [List.length_append, List.length_cons, List.length_nil] at hle
          have hne4 : q2.length ≠ d.length + 2 := by
            intro hl
            apply hne3
            have heq := prefix_take_eq hpre
            rw [heq, hl]
            apply List.take_of_length_le
            simp only [List.length_append, List.length_cons, List.length_nil]
            omega
          omega
        refine checkB_bulk_incomplete _ _ _ hrd (by omega) ?_
        rw [Int.toNat_natCast]
        omega
  | .array items, hwf, p, hp, hne => by
    obtain ⟨hlen, hwl⟩ := wf_array_parts items hwf
    have henc : encodeFrame (.array items) =
        42 :: ((digitsOf items.length ++ [13, 10]) ++ encodeFrames items) := by
      rw [encodeFrame]
    rw [henc] at hp hne
    rcases p with _ | ⟨t, q⟩
    · exact checkB_nil
    · obtain ⟨rfl, hq⟩ := List.cons_prefix_cons.mp hp
      have hqne : q ≠ (digitsOf items.length ++ [13, 10]) ++ encodeFrames items :=
        fun h => hne (by rw [h])
      rcases prefix_split _ _ q hq with ⟨hpre, hne2⟩ | ⟨q2, rfl, hpre⟩
      · exact checkB_array_err q .incomplete
          (readDecimal_incomplete (readLine_none
            (prefix_line_none _ q (not13_digitsOf _) hpre hne2)))
      · have hne3 : q2 ≠ encodeFrames items := fun h => hqne (by rw [h])
        have hrd : readDecimal ((digitsOf items.length ++ [13, 10]) ++ q2)
            = .ok ((items.length : Int), q2) := by
          have hform : (digitsOf items.length ++ [13, 10]) ++ q2
              = digitsOf items.length ++ 13 :: 10 :: q2 := by simp
          rw [hform]
          exact readDecimal_nat items.length q2 hlen
        rw [checkB_array_go _ _ _ hrd (by omega)]
        rw [Int.toNat_natCast]
        exact checkNB_properPre items hwl q2 hpre hne3

/-- A proper prefix of concatenated well-formed encodings fails the element
loop with Incomplete. -/
theorem checkNB_properPre : (fs : List Frame) → Frame.wfList fs = true → ∀ p,
    p <+: encodeFrames fs → p ≠ encodeFrames fs →
    checkNB fs.length p = .error .incomplete
  | [], _, p, hp, hne => by
    rw [encodeFrames] at hp hne
    exact absurd (List.prefix_nil.mp hp) hne
  | f :: fs, hwf, p, hp, hne => by
    obtain ⟨h1, h2⟩ := wfList_parts f fs hwf
    rw [encodeFrames] at hp hne
    simp only [List.length_cons]
    rcases prefix_split _ _ p hp with ⟨hpre, hne2⟩ | ⟨q2, rfl, hpre⟩
    · exact checkNB_succ_err fs.length p .incomplete (checkB_properPre f h1 p hpre hne2)
    · have hne3 : q2 ≠ encodeFrames fs := fun h => hne (by rw [h])
      rw [checkNB_succ_ok fs.length _ q2 (checkB_encode f h1 q2)]
      exact checkNB_properPre fs h2 q2 hpre hne3

end

/-- Evaluate `Frame::parse` when both passes succeed. -/
theorem parseBuf_eq_frame {buf r : List Nat} {f : Frame}
    (h1 : checkB buf = .ok r) (h2 : ∃ s, parseFr buf = .ok (f, s)) :
    parseBuf buf = (.frame f r, r) := by
  obtain ⟨s, h2⟩ := h2
  rw [parseBuf]
  rw [checkB] at h1
  rcases hC : checkComplete buf with e | ⟨rc, hrc⟩
  · rw [hC] at h1
    simp [Except.map] at h1
  · rw [hC] at h1
    simp only [Except.map] at h1
    have hr : rc = r := Except.ok.inj h1
    subst hr
    dsimp only
    rw [parseFr] at h2
    rcases hP : parseFrame buf with e2 | ⟨f2, s2, hs2⟩
    · rw [hP] at h2
      simp [Except.map] at h2
    · rw [hP] at h2
      simp only [Except.map] at h2
      have hf : f2 = f := (Prod.mk.inj (Except.ok.inj h2)).1
      subst hf
      rfl

/-- Evaluate `Frame::parse` when the completeness scan reports Incomplete. -/
theorem parseBuf_eq_incomplete {buf : List Nat}
    (h : checkB buf = .error .incomplete) : parseBuf buf = (.incomplete, buf) := by
  rw [parseBuf]
  rw [checkB] at h
  rcases hC : checkComplete buf with e | ⟨rc, hrc⟩
  · rw [hC] at h
    simp only [Except.map] at h
    have he : e = .incomplete := Except.error.inj h
    subst he
    rfl
  · rw [hC] at h
    simp [Except.map] at h

/-- C9: `Frame::parse` consumes bytes only when it returns a complete frame.
Part 1: on any outcome other than a frame the buffer is returned
byte-for-byte unchanged (covering Incomplete, Invalid and the panicking
executions).  Part 2: any proper prefix of a well-formed frame encoding
yields Incomplete with the buffer unchanged, so the caller can retry after
reading more bytes.  Part 3: when a frame is returned, exactly that frame's
bytes were consumed from the front: the buffer splits as `c ++ r` with `r`
returned, and the consumed span `c` alone parses to the same frame consuming
everything. -/
theorem c9_parse_restartable :
    (∀ buf o b2, parseBuf buf = (o, b2) →
      (∀ f r, o ≠ ParseOutcome.frame f r) → b2 = buf) ∧
    (∀ f : Frame, f.wf = true → ∀ p, p <+: encodeFrame f → p ≠ encodeFrame f →
      parseBuf p = (.incomplete, p)) ∧
    (∀ buf f r b2, parseBuf buf = (.frame f r, b2) →
      b2 = r ∧ ∃ c, buf = c ++ r ∧ parseBuf c = (.frame f [], [])) := by
  refine ⟨?_, ?_, ?_⟩
  · intro buf o b2 hpb hno
    rw [parseBuf] at hpb
    rcases hC : checkComplete buf with e | ⟨r0, hr0⟩
    · rw [hC] at hpb
      rcases e
      all_goals exact (Prod.mk.inj hpb).2.symm
    · rw [hC] at hpb
      dsimp only at hpb
      rcases hP : parseFrame buf with e2 | ⟨f2, r2, h2⟩
      · rw [hP] at hpb
        rcases e2
        all_goals exact (Prod.mk.inj hpb).2.symm
      · rw [hP] at hpb
        dsimp only at hpb
        exact absurd (Prod.mk.inj hpb).1.symm (hno f2 r0)
  · intro f hwf p hp hne
    exact parseBuf_eq_incomplete (checkB_properPre f hwf p hp hne)
  · intro buf f r b2 hpb
    rw [parseBuf] at hpb
    rcases hC : checkComplete buf with e | ⟨r0, hr0⟩
    · rw [hC] at hpb
      rcases e <;> simp at hpb
    · rw [hC] at hpb
      dsimp only at hpb
      rcases hP : parseFrame buf with e2 | ⟨f2, r2, h2⟩
      · rw [hP] at hpb
        rcases e2 <;> simp at hpb
      · rw [hP] at hpb
        dsimp only at hpb
        have hfr : ParseOutcome.frame f2 r0 = ParseOutcome.frame f r :=
          (Prod.mk.inj hpb).1
        have hb2 : r0 = b2 := (Prod.mk.inj hpb).2
        have hinj := ParseOutcome.frame.inj hfr
        refine ⟨hb2.symm.trans hinj.2, ?_⟩
        have hcb : checkB buf = .ok r := by
          rw [checkB, hC]
          simp [Except.map, hinj.2]
        obtain ⟨c, hbc, hD, hPc⟩ := checkB_span buf r hcb
        have hpf : parseFr buf = .ok (f, r2) := by
          rw [parseFr, hP]
          simp [Except.map, hinj.1]
        obtain ⟨hs, hPt⟩ := hPc f r2 hpf
        refine ⟨c, hbc, ?_⟩
        have hc1 : checkB (c ++ []) = .ok [] := hD []
        rw [List.append_nil] at hc1
        have hc2 := hPt []
        rw [List.append_nil] at hc2
        exact parseBuf_eq_frame hc1 ⟨[], hc2⟩

/-- C9 witness: on the buffer `+OK\r\n` followed by a stray byte `c`, the
decoder consumes exactly the frame's five bytes (part 3), and on the proper
prefix `+O` of that encoding it reports Incomplete leaving the buffer
unchanged (part 2). -/
theorem c9_parse_restartable_witness :
    (∃ c, [43, 79, 75, 13, 10, 99] = c ++ [99] ∧
      parseBuf c = (.frame (.simple [79, 75]) [], [])) ∧
    parseBuf [43, 79] = (.incomplete, [43, 79]) := by
  have hb : parseBuf [43, 79, 75, 13, 10, 99]
      = (.frame (.simple [79, 75]) [99], [99]) := by
    have h1 : checkB [43, 79, 75, 13, 10, 99] = .ok [99] :=
      checkB_line 43 [79, 75, 13, 10, 99] [79, 75] [99] (Or.inl rfl) rfl
    have h2 : parseFr [43, 79, 75, 13, 10, 99] = .ok (.simple [79, 75], [99]) :=
      parseFr_simple [79, 75, 13, 10, 99] [79, 75] [99] rfl (by decide)
    exact parseBuf_eq_frame h1 ⟨[99], h2⟩
  constructor
  · exact (c9_parse_restartable.2.2 [43, 79, 75, 13, 10, 99]
      (.simple [79, 75]) [99] [99] hb).2
  · exact c9_parse_restartable.2.1 (.simple [79, 75]) (by decide) [43, 79]
      ⟨[75, 13, 10], rfl⟩ (by decide)

/-! ## AOF persistence (`src/persistence.rs`)

`Aof::append` writes `serialize_frame` output (the same encoding as
`encodeFrame`, see `write_frame_recursive`).  `Aof::load` re-reads the file
through `BufReader::lines`: each iterator step reads bytes up to and
including the next LF, fails with an IO error when those bytes are not
valid UTF-8, and otherwise strips the trailing LF and then one trailing CR
(a final line without LF is yielded as-is, CR included).  A line is
modelled as `Except Unit RStr`: `.error ()` is the invalid-UTF-8 case. -/

/-- Pop one trailing CR (the `ends_with('\r')` branch of `lines`). -/
def stripCr (l : List Nat) : List Nat :=
  if l.getLast? = some 13 then l.dropLast else l

/-- The `lines` iterator with the bytes of the current unfinished line
accumulated in reverse in `acc`. -/
def linesGo (acc : List Nat) : List Nat → List (Except Unit RStr)
  | [] => [if utf8Valid acc.reverse then .ok acc.reverse else .error ()]
  | b :: rest =>
    if b = 10 then
      (if utf8Valid (acc.reverse ++ [10]) then .ok (stripCr acc.reverse)
       else .error ()) ::
        (if rest = [] then [] else linesGo [] rest)
    else linesGo (b :: acc) rest

/-- All lines of a byte stream (`BufReader::lines` collected). -/
def linesOf (b : List Nat) : List (Except Unit RStr) :=
  match b with
  | [] => []
  | _ => linesGo [] b

theorem stripCr_append13 (l : List Nat) : stripCr (l ++ [13]) = l := by
  rw [stripCr, if_pos (by rw [List.getLast?_concat]), List.dropLast_concat]

theorem linesOf_ne_nil {X : List Nat} (h : X ≠ []) : linesOf X = linesGo [] X := by
  cases X with
  | nil => exact absurd rfl h
  | cons x xs => rfl

theorem linesGo_append : ∀ (seg : List Nat) (acc tail : List Nat), 10 ∉ seg →
    linesGo acc (seg ++ 10 :: tail) =
      (if utf8Valid (acc.reverse ++ seg ++ [10]) then
        .ok (stripCr (acc.reverse ++ seg)) else .error ()) ::
        (if tail = [] then [] else linesGo [] tail) := by
  intro seg
  induction seg with
  | nil =>
    intro acc tail _
    rw [List.nil_append, linesGo]
    simp
  | cons b bs ih =>
    intro acc tail h10
    have hb : b ≠ 10 := fun h => h10 (h ▸ List.mem_cons_self b bs)
    rw [List.cons_append, linesGo, if_neg hb,
      ih (b :: acc) tail (fun h => h10 (List.mem_cons_of_mem b h))]
    simp only [List.reverse_cons, List.append_assoc, List.cons_append,
      List.nil_append]

/-- One complete CRLF-terminated line of the stream, when its body holds no
LF: read as one element, UTF-8 checked on the bytes read, CR stripped. -/
theorem linesOf_crlf (seg tail : List Nat) (h10 : 10 ∉ seg) :
    linesOf (seg ++ 13 :: 10 :: tail) =
      (if utf8Valid (seg ++ [13, 10]) then .ok seg else .error ()) ::
        linesOf tail := by
  have h10b : 10 ∉ seg ++ [13] := by
    intro h
    rcases List.mem_append.mp h with h | h
    · exact h10 h
    · simp at h
  have hne : seg ++ 13 :: 10 :: tail ≠ [] := by simp
  rw [linesOf_ne_nil hne]
  have hform : seg ++ 13 :: 10 :: tail = (seg ++ [13]) ++ 10 :: tail := by simp
  rw [hform, linesGo_append (seg ++ [13]) [] tail h10b]
  rw [List.reverse_nil, List.nil_append, stripCr_append13]
  have htail : (if tail = [] then ([] : List (Except Unit RStr))
      else linesGo [] tail) = linesOf tail := by
    cases tail with
    | nil => rfl
    | cons t ts => exact (linesOf_ne_nil (by simp)).symm
  rw [htail]
  have hseg : (seg ++ [13]) ++ [10] = seg ++ [13, 10] := by simp
  rw [hseg]

theorem not10_digitsOf (n : Nat) : 10 ∉ digitsOf n := by
  intro h
  have := digitsOf_mem_digit n 10 h
  omega

/-- The line iterator state: lines not yet consumed. -/
abbrev Lines := List (Except Unit RStr)

/-- The `':'` arm of `parse_line`: parse the line tail as an `i64`. -/
def intLine (content : RStr) : Except Unit Frame :=
  match parseI64 content with
  | some n => .ok (.integer n)
  | none => .error ()

/-- The `'$'` arm of `parse_line`: parse the declared length as an `isize`,
`-1` is Null, and otherwise the next line is taken wholesale as the bulk
payload - the declared length is never used. -/
def bulkStep (content : RStr) (ls : Lines) :
    (Except Unit Frame) × { rest : Lines // rest.length ≤ ls.length } :=
  match parseI64 content with
  | none => (.error (), ⟨ls, le_refl _⟩)
  | some len =>
    if len = -1 then (.ok .null, ⟨ls, le_refl _⟩)
    else
      match ls with
      | [] => (.error (), ⟨[], le_refl _⟩)
      | .error _ :: rest => (.error (), ⟨rest, by simp⟩)
      | .ok data :: rest => (.ok (.bulk data), ⟨rest, by simp⟩)

mutual

/-- `Aof::parse_line`: a simplified per-line parser.  `'$'` parses the
declared length only to test for `-1` (Null) and otherwise takes the next
line wholesale as the bulk payload, ignoring the declared length; `'*'`
parses a `usize` count and consumes that many recursively parsed elements.
All failure paths return an IO error (`Unit` here, messages elided), and
lines consumed before a failure stay consumed, which is why the new iterator
state is returned alongside the result.  (A count of at least `2^63` would
make the source's `Vec::with_capacity` panic; no theorem below reaches that
execution.) -/
def parseLine : (line : RStr) → (ls : Lines) →
    (Except Unit Frame) × { rest : Lines // rest.length ≤ ls.length }
  | [], ls => (.error (), ⟨ls, le_refl _⟩)
  | c :: content, ls =>
    if c = 43 then (.ok (.simple content), ⟨ls, le_refl _⟩)
    else if c = 45 then (.ok (.error content), ⟨ls, le_refl _⟩)
    else if c = 58 then (intLine content, ⟨ls, le_refl _⟩)
    else if c = 36 then bulkStep content ls
    else if c = 42 then
      match hpu : parseU64 content with
      | none => (.error (), ⟨ls, le_refl _⟩)
      | some cnt =>
        match parseLineN cnt ls with
        | (r, ⟨rest, h⟩) => (r.map Frame.array, ⟨rest, h⟩)
    else (.error (), ⟨ls, le_refl _⟩)
termination_by line ls => (ls.length, 1)
decreasing_by
  apply Prod.Lex.right
  omega

/-- The `for _ in 0..count` element loop of `parse_line`'s `'*'` arm. -/
def parseLineN : (n : Nat) → (ls : Lines) →
    (Except Unit (List Frame)) × { rest : Lines // rest.length ≤ ls.length }
  | 0, ls => (.ok [], ⟨ls, le_refl _⟩)
  | n + 1, ls =>
    match ls with
    | [] => (.error (), ⟨[], le_refl _⟩)
    | .error _ :: rest => (.error (), ⟨rest, by simp⟩)
    | .ok next :: rest =>
      match parseLine next rest with
      | (.error e, ⟨rest2, h2⟩) => (.error e, ⟨rest2, by simp; omega⟩)
      | (.ok f, ⟨rest2, h2⟩) =>
        match parseLineN n rest2 with
        | (.error e, ⟨rest3, h3⟩) => (.error e, ⟨rest3, by simp; omega⟩)
        | (.ok fs, ⟨rest3, h3⟩) => (.ok (f :: fs), ⟨rest3, by simp; omega⟩)
termination_by n ls => (ls.length, 0)
decreasing_by
  · apply Prod.Lex.left
    simp
  · apply Prod.Lex.left
    simp
    omega

end

/-- The `while let Some(Ok(line))` loop of `Aof::load`: stop at EOF or at
the first unreadable (invalid UTF-8) line; per-line parse errors are
silently skipped but keep the lines they consumed. -/
def loadFrames : (ls : Lines) → List Frame
  | [] => []
  | .error _ :: _ => []
  | .ok line :: rest =>
    match parseLine line rest with
    | (.ok f, ⟨rest2, h2⟩) => f :: loadFrames rest2
    | (.error _, ⟨rest2, h2⟩) => loadFrames rest2
termination_by ls => ls.length
decreasing_by
  · simp
    omega
  · simp
    omega

/-- `Aof::load` on the file's byte contents. -/
def aofLoad (b : List Nat) : List Frame := loadFrames (linesOf b)

/-- `parseLine` with the subtype bound projected away. -/
def parseLineB (line : RStr) (ls : Lines) : Except Unit Frame × Lines :=
  ((parseLine line ls).1, (parseLine line ls).2.val)

/-- `parseLineN` with the subtype bound projected away. -/
def parseLineNB (n : Nat) (ls : Lines) : Except Unit (List Frame) × Lines :=
  ((parseLineN n ls).1, (parseLineN n ls).2.val)

/-- The request frame of a command sent as an array of bulk strings (the
shape clients and the recorded AOF use). -/
def cmdFrame (ds : List RStr) : Frame := .array (ds.map Frame.bulk)

/-- The lines the AOF encoding of each bulk contributes. -/
def bulkFLines : List RStr → Lines
  | [] => []
  | d :: ds => .ok (36 :: digitsOf d.length) :: .ok d :: bulkFLines ds

/-- The lines the AOF encoding of a whole command frame contributes. -/
def cmdLines (ds : List RStr) : Lines :=
  .ok (42 :: digitsOf ds.length) :: bulkFLines ds

/-- The AOF file contents after recording the given command frames:
`serialize_frame` output appended in order. -/
def aofBytes : List (List RStr) → List Nat
  | [] => []
  | ds :: rest => encodeFrame (cmdFrame ds) ++ aofBytes rest

/-- Direct execution of a command sequence: the keyspace after
`Command::execute` of each command in order. -/
def directRun (cs : List Command) (db : DbState) : DbState :=
  cs.foldl (fun d c => (executeDb c d [] 0).1) db

/-- The AOF restore loop of `main`: each recovered frame is re-parsed with
`Command::from_frame` (at restore time `now`) and replayed; frames that fail
command parsing are skipped. -/
def replayAll (now : Nat) (fs : List Frame) (db : DbState) : DbState :=
  fs.foldl (fun d f =>
    match fromFrame now f with
    | .ok c => replayDb c d
    | .error _ => d) db

theorem parseLineB_bulk (content : RStr) (len : Int) (h : parseI64 content = some len)
    (hne : len ≠ -1) (data : RStr) (rest : Lines) :
    parseLineB (36 :: content) (.ok data :: rest) = (.ok (.bulk data), rest) := by
  rw [parseLineB, parseLine.eq_def]
  dsimp only
  rw [if_neg (by norm_num), if_neg (by norm_num), if_neg (by norm_num), if_pos rfl]
  rw [bulkStep, h]
  dsimp only
  rw [if_neg hne]

theorem parseLineB_array (content : RStr) (cnt : Nat) (h : parseU64 content = some cnt)
    (ls : Lines) :
    parseLineB (42 :: content) ls =
      ((parseLineNB cnt ls).1.map Frame.array, (parseLineNB cnt ls).2) := by
  rw [parseLineB, parseLine.eq_def]
  dsimp only
  rw [if_neg (by norm_num), if_neg (by norm_num), if_neg (by norm_num),
    if_neg (by norm_num), if_pos rfl, h]
  dsimp only
  rcases hP : parseLineN cnt ls with ⟨r, rest, hr⟩
  rw [parseLineNB, hP]

theorem parseLineB_junk (c : Nat) (content : RStr) (ls : Lines)
    (h43 : c ≠ 43) (h45 : c ≠ 45) (h58 : c ≠ 58) (h36 : c ≠ 36) (h42 : c ≠ 42) :
    parseLineB (c :: content) ls = (.error (), ls) := by
  rw [parseLineB, parseLine.eq_def]
  dsimp only
  rw [if_neg h43, if_neg h45, if_neg h58, if_neg h36, if_neg h42]

theorem parseLineNB_zero (ls : Lines) : parseLineNB 0 ls = (.ok [], ls) := by
  rw [parseLineNB, parseLineN]

theorem parseLineNB_succ_ok (next : RStr) (rest : Lines) (f : Frame) (rest2 : Lines)
    (n : Nat) (fs : List Frame) (rest3 : Lines)
    (h1 : parseLineB next rest = (.ok f, rest2))
    (h2 : parseLineNB n rest2 = (.ok fs, rest3)) :
    parseLineNB (n + 1) (.ok next :: rest) = (.ok (f :: fs), rest3) := by
  rw [parseLineNB, parseLineN]
  rw [parseLineB] at h1
  rcases hP : parseLine next rest with ⟨r, rr, hr⟩
  rw [hP] at h1
  dsimp only at h1
  obtain ⟨hr1, hr2⟩ := Prod.mk.inj h1
  subst hr1
  subst hr2
  dsimp only
  rw [parseLineNB] at h2
  rcases hN : parseLineN n rr with ⟨r2, rr2, hr2b⟩
  rw [hN] at h2
  dsimp only at h2
  obtain ⟨hq1, hq2⟩ := Prod.mk.inj h2
  subst hq1
  subst hq2
  rfl

theorem loadFrames_nil : loadFrames [] = [] := by
  rw [loadFrames]

theorem loadFrames_ok (line : RStr) (rest : Lines) (f : Frame) (rest2 : Lines)
    (h : parseLineB line rest = (.ok f, rest2)) :
    loadFrames (.ok line :: rest) = f :: loadFrames rest2 := by
  rw [loadFrames]
  rw [parseLineB] at h
  rcases hP : parseLine line rest with ⟨r, rr, hr⟩
  rw [hP] at h
  dsimp only at h
  obtain ⟨h1, h2⟩ := Prod.mk.inj h
  subst h1
  subst h2
  rfl

theorem loadFrames_skip (line : RStr) (rest : Lines) (rest2 : Lines)
    (h : parseLineB line rest = (.error (), rest2)) :
    loadFrames (.ok line :: rest) = loadFrames rest2 := by
  rw [loadFrames]
  rw [parseLineB] at h
  rcases hP : parseLine line rest with ⟨r, rr, hr⟩
  rw [hP] at h
  dsimp only at h
  obtain ⟨h1, h2⟩ := Prod.mk.inj h
  subst h1
  subst h2
  rfl

/-- The payloads an AOF line round-trip can preserve: an LF-free, valid
UTF-8 byte string within the serializer's length bound. -/
def aofSafe (ds : List RStr) : Bool :=
  decide (ds.length ≤ 2 ^ 63 - 1) &&
    ds.all (fun d => !d.contains 10 && utf8Valid d && decide (d.length ≤ 2 ^ 63 - 1))

theorem aofSafe_parts {ds : List RStr} (h : aofSafe ds = true) :
    ds.length ≤ 2 ^ 63 - 1 ∧
      ∀ d ∈ ds, 10 ∉ d ∧ utf8Valid d = true ∧ d.length ≤ 2 ^ 63 - 1 := by
  rw [aofSafe] at h
  simp only [Bool.and_eq_true, List.all_eq_true, decide_eq_true_eq,
    Bool.not_eq_true'] at h
  refine ⟨h.1, fun d hd => ?_⟩
  obtain ⟨⟨h1, h2⟩, h3⟩ := h.2 d hd
  exact ⟨not_mem_of_contains_false h1, h2, h3⟩

theorem parseI64_digitsOf (n : Nat) (h : (n : Int) ≤ 2 ^ 63 - 1) :
    parseI64 (digitsOf n) = some ((n : Int)) := by
  rw [parseI64]
  exact parseIntSigned_digitsOf _ _ n h

/-- The lines of the encoded bulk arguments. -/
theorem linesOf_encode_bulks : ∀ (ds : List RStr) (tail : List Nat),
    (∀ d ∈ ds, 10 ∉ d ∧ utf8Valid d = true) →
    linesOf (encodeFrames (ds.map Frame.bulk) ++ tail) = bulkFLines ds ++ linesOf tail := by
  intro ds
  induction ds with
  | nil =>
    intro tail _
    rw [List.map_nil, encodeFrames, bulkFLines, List.nil_append, List.nil_append]
  | cons d ds ih =>
    intro tail h
    obtain ⟨hd10, hdu⟩ := h d (List.mem_cons_self d ds)
    have ih2 := ih tail (fun d2 hd2 => h d2 (List.mem_cons_of_mem d hd2))
    rw [List.map_cons, encodeFrames, bulkFLines]
    have hform : (encodeFrame (.bulk d) ++ encodeFrames (ds.map Frame.bulk)) ++ tail
        = (36 :: digitsOf d.length) ++
            13 :: 10 :: (d ++ 13 :: 10 :: (encodeFrames (ds.map Frame.bulk) ++ tail)) := by
      rw [encodeFrame]
      simp
    rw [hform]
    have h10b : 10 ∉ 36 :: digitsOf d.length := by
      intro hm
      rcases List.mem_cons.mp hm with hm | hm
      · omega
      · exact not10_digitsOf _ hm
    rw [linesOf_crlf _ _ h10b]
    rw [if_pos (utf8Valid_of_ascii _ ?hb)]
    case hb =>
      intro b hb
      simp only [List.cons_append, List.mem_cons, List.mem_append] at hb
      rcases hb with rfl | hb | hb
      · omega
      · exact ascii_digitsOf _ b hb
      · rcases hb with rfl | hb
        · omega
        · simp at hb
          omega
    rw [linesOf_crlf _ _ hd10]
    rw [if_pos (utf8Valid_append d [13, 10] hdu (by decide))]
    rw [ih2]
    simp

/-- The lines of one whole recorded command frame. -/
theorem linesOf_encode_cmd (ds : List RStr) (tail : List Nat)
    (h : ∀ d ∈ ds, 10 ∉ d ∧ utf8Valid d = true) :
    linesOf (encodeFrame (cmdFrame ds) ++ tail) = cmdLines ds ++ linesOf tail := by
  have henc : encodeFrame (cmdFrame ds) ++ tail =
      (42 :: digitsOf ds.length) ++
        13 :: 10 :: (encodeFrames (ds.map Frame.bulk) ++ tail) := by
    rw [cmdFrame, encodeFrame]
    simp [List.length_map]
  rw [henc]
  have h10 : 10 ∉ 42 :: digitsOf ds.length := by
    intro hm
    rcases List.mem_cons.mp hm with hm | hm
    · omega
    · exact not10_digitsOf _ hm
  rw [linesOf_crlf _ _ h10]
  rw [if_pos (utf8Valid_of_ascii _ ?ha)]
  case ha =>
    intro b hb
    simp only [List.cons_append, List.mem_cons, List.mem_append] at hb
    rcases hb with rfl | hb | hb
    · omega
    · exact ascii_digitsOf _ b hb
    · rcases hb with rfl | hb
      · omega
      · simp at hb
        omega
  rw [cmdLines, List.cons_append]
  congr 1
  exact linesOf_encode_bulks ds tail h

/-- The element loop reconstructs each recorded bulk, ignoring the declared
lengths. -/
theorem parseLineNB_bulks : ∀ (ds : List RStr) (rest : Lines),
    (∀ d ∈ ds, (d.length : Int) ≤ 2 ^ 63 - 1) →
    parseLineNB ds.length (bulkFLines ds ++ rest) = (.ok (ds.map Frame.bulk), rest) := by
  intro ds
  induction ds with
  | nil =>
    intro rest _
    rw [bulkFLines, List.nil_append, List.length_nil, List.map_nil]
    exact parseLineNB_zero rest
  | cons d ds ih =>
    intro rest h
    have hd := h d (List.mem_cons_self d ds)
    have ih2 := ih rest (fun d2 hd2 => h d2 (List.mem_cons_of_mem d hd2))
    rw [bulkFLines, List.length_cons, List.map_cons, List.cons_append,
      List.cons_append]
    exact parseLineNB_succ_ok _ _ _ _ _ _ _
      (parseLineB_bulk (digitsOf d.length) ((d.length : Int))
        (parseI64_digitsOf d.length hd) (by omega) d (bulkFLines ds ++ rest))
      ih2

/-- `parse_line` reconstructs a whole recorded command frame from its
lines. -/
theorem parseLineB_cmd (ds : List RStr) (rest : Lines)
    (hlen : ds.length ≤ 2 ^ 63 - 1)
    (h : ∀ d ∈ ds, (d.length : Int) ≤ 2 ^ 63 - 1) :
    parseLineB (42 :: digitsOf ds.length) (bulkFLines ds ++ rest)
      = (.ok (cmdFrame ds), rest) := by
  rw [parseLineB_array (digitsOf ds.length) ds.length
    (by rw [parseU64]; exact parseUnsignedN_digitsOf _ _ (by omega)) _]
  rw [parseLineNB_bulks ds rest h]
  rw [cmdFrame]
  simp [Except.map]

/-- The concatenated lines of a sequence of recorded command frames. -/
def catLines : List (List RStr) → Lines
  | [] => []
  | ds :: rest => cmdLines ds ++ catLines rest

theorem loadFrames_cat : ∀ dss : List (List RStr),
    (∀ ds ∈ dss, aofSafe ds = true) →
    loadFrames (catLines dss) = dss.map cmdFrame := by
  intro dss
  induction dss with
  | nil =>
    intro _
    rw [catLines, List.map_nil]
    exact loadFrames_nil
  | cons ds dss ih =>
    intro h
    obtain ⟨hlen, hparts⟩ := aofSafe_parts (h ds (List.mem_cons_self ds dss))
    have ih2 := ih (fun ds2 hd2 => h ds2 (List.mem_cons_of_mem ds hd2))
    rw [catLines, cmdLines, List.cons_append, List.map_cons]
    rw [loadFrames_ok _ _ _ _
      (parseLineB_cmd ds (catLines dss) hlen
        (fun d hd => by
          have := (hparts d hd).2.2
          omega))]
    rw [ih2]

theorem linesOf_aofBytes : ∀ dss : List (List RStr),
    (∀ ds ∈ dss, aofSafe ds = true) →
    linesOf (aofBytes dss) = catLines dss := by
  intro dss
  induction dss with
  | nil =>
    intro _
    rw [aofBytes, catLines, linesOf]
  | cons ds dss ih =>
    intro h
    obtain ⟨hlen, hparts⟩ := aofSafe_parts (h ds (List.mem_cons_self ds dss))
    have ih2 := ih (fun ds2 hd2 => h ds2 (List.mem_cons_of_mem ds hd2))
    rw [aofBytes, catLines]
    rw [linesOf_encode_cmd ds _ (fun d hd => ⟨(hparts d hd).1, (hparts d hd).2.1⟩)]
    rw [ih2]

/-- `Aof::load` recovers exactly the recorded command frames when every
payload is LF-free valid UTF-8. -/
theorem aofLoad_aofBytes (dss : List (List RStr))
    (h : ∀ ds ∈ dss, aofSafe ds = true) :
    aofLoad (aofBytes dss) = dss.map cmdFrame := by
  rw [aofLoad, linesOf_aofBytes dss h, loadFrames_cat dss h]

theorem delAll_foldl_snd : ∀ (ks : List RStr) (n : Nat) (db : DbState),
    (ks.foldl
      (fun acc k1 =>
        let d := deleteDb acc.2 k1
        (acc.1 + (if d.1 then 1 else 0), d.2))
      (n, db)).2 = ks.foldl (fun acc k1 => (deleteDb acc k1).2) db := by
  intro ks
  induction ks with
  | nil => intro n db; rfl
  | cons k ks ih =>
    intro n db
    rw [List.foldl_cons, List.foldl_cons]
    exact ih _ _

/-- For write commands, `Command::replay` performs exactly the keyspace
mutation of `Command::execute`. -/
theorem replayDb_execute (c : Command) (hw : isWriteCommand c = true)
    (db : DbState) (ps : PubSubState) (now : Nat) :
    (executeDb c db ps now).1 = replayDb c db := by
  cases c <;>
    first
      | rfl
      | (rw [executeDb, replayDb, delAll]
         exact delAll_foldl_snd _ 0 db)
      | simp [isWriteCommand] at hw

theorem replayAll_directRun : ∀ (l : List (List RStr × Command)) (nowR : Nat)
    (db : DbState),
    (∀ p ∈ l, (∀ now, fromFrame now (cmdFrame p.1) = .ok p.2) ∧
      isWriteCommand p.2 = true) →
    replayAll nowR ((l.map Prod.fst).map cmdFrame) db
      = directRun (l.map Prod.snd) db := by
  intro l
  induction l with
  | nil => intro nowR db _; rfl
  | cons p l ih =>
    intro nowR db h
    obtain ⟨hff, hw⟩ := h p (List.mem_cons_self p l)
    have ih2 := ih nowR (replayDb p.2 db) (fun q hq => h q (List.mem_cons_of_mem p hq))
    rw [List.map_cons, List.map_cons, List.map_cons, replayAll, List.foldl_cons]
    rw [hff nowR]
    dsimp only
    rw [directRun, List.foldl_cons]
    rw [replayDb_execute p.2 hw db [] 0]
    exact ih2

/-- C4 counterexample.  The claim promises AOL replay equivalence "for all
argument payloads including binary payloads".  Take the single command
`SET k v` with `v = [97, 10, 98]` (`a`, LF, `b`): the direct run stores
`[97, 10, 98]` under `k`, but the recorded AOF line-splits the payload at
the LF, `Aof::load` reconstructs `SET k [97]` (bulk lengths are ignored and
the leftover `b\r` line fails parsing and is skipped), so replay stores
`[97]`: the two keyspaces differ. -/
theorem c4_counterexample :
    fromFrame 0 (cmdFrame [ascii "SET", [107], [97, 10, 98]])
      = .ok (.set [107] [97, 10, 98] none) ∧
    isWriteCommand (.set [107] [97, 10, 98] none) = true ∧
    directRun [.set [107] [97, 10, 98] none] []
      = [([107], ⟨.str [97, 10, 98], none⟩)] ∧
    replayAll 0 (aofLoad (aofBytes [[ascii "SET", [107], [97, 10, 98]]])) []
      = [([107], ⟨.str [97], none⟩)] ∧
    [([107], (⟨.str [97, 10, 98], none⟩ : Entry))] ≠ [([107], ⟨.str [97], none⟩)] := by
  refine ⟨rfl, rfl, rfl, ?_, by decide⟩
  have hlines : linesOf (aofBytes [[ascii "SET", [107], [97, 10, 98]]]) =
      [.ok [42, 51], .ok [36, 51], .ok [83, 69, 84], .ok [36, 49], .ok [107],
        .ok [36, 51], .ok [97], .ok [98]] := rfl
  rw [aofLoad, hlines]
  have h3 : parseLineB [36, 51] [.ok [97], .ok [98]]
      = (.ok (.bulk [97]), [.ok [98]]) :=
    parseLineB_bulk [51] 3 rfl (by decide) [97] [.ok [98]]
  have h2 : parseLineB [36, 49] [.ok [107], .ok [36, 51], .ok [97], .ok [98]]
      = (.ok (.bulk [107]), [.ok [36, 51], .ok [97], .ok [98]]) :=
    parseLineB_bulk [49] 1 rfl (by decide) [107] [.ok [36, 51], .ok [97], .ok [98]]
  have h1 : parseLineB [36, 51]
      [.ok [83, 69, 84], .ok [36, 49], .ok [107], .ok [36, 51], .ok [97], .ok [98]]
      = (.ok (.bulk [83, 69, 84]),
        [.ok [36, 49], .ok [107], .ok [36, 51], .ok [97], .ok [98]]) :=
    parseLineB_bulk [51] 3 rfl (by decide) [83, 69, 84]
      [.ok [36, 49], .ok [107], .ok [36, 51], .ok [97], .ok [98]]
  have hN : parseLineNB 3
      [.ok [36, 51], .ok [83, 69, 84], .ok [36, 49], .ok [107], .ok [36, 51],
        .ok [97], .ok [98]]
      = (.ok [.bulk [83, 69, 84], .bulk [107], .bulk [97]], [.ok [98]]) :=
    parseLineNB_succ_ok _ _ _ _ _ _ _ h1
      (parseLineNB_succ_ok _ _ _ _ _ _ _ h2
        (parseLineNB_succ_ok _ _ _ _ _ _ _ h3 (parseLineNB_zero _)))
  have hA : parseLineB [42, 51]
      [.ok [36, 51], .ok [83, 69, 84], .ok [36, 49], .ok [107], .ok [36, 51],
        .ok [97], .ok [98]]
      = (.ok (.array [.bulk [83, 69, 84], .bulk [107], .bulk [97]]), [.ok [98]]) := by
    rw [parseLineB_array [51] 3 rfl, hN]
    rfl
  rw [loadFrames_ok _ _ _ _ hA]
  have hJ : parseLineB [98] [] = (.error (), []) :=
    parseLineB_junk 98 [] [] (by decide) (by decide) (by decide) (by decide) (by decide)
  rw [loadFrames_skip _ _ _ hJ, loadFrames_nil]
  rfl

/-- C4 (amended): AOL replay equivalence restricted to the payloads the
line-based loader can survive.  For any sequence of write commands whose
request frames are arrays of bulk strings with LF-free, valid-UTF-8
payloads (within the length bounds) and whose parses are
time-independent, replaying the recorded AOF into an empty keyspace at any
restore time rebuilds exactly the keyspace of the direct run. -/
theorem c4_aol_replay (l : List (List RStr × Command)) (nowR : Nat)
    (h : ∀ p ∈ l, aofSafe p.1 = true ∧
      (∀ now, fromFrame now (cmdFrame p.1) = .ok p.2) ∧
      isWriteCommand p.2 = true) :
    replayAll nowR (aofLoad (aofBytes (l.map Prod.fst))) []
      = directRun (l.map Prod.snd) [] := by
  rw [aofLoad_aofBytes (l.map Prod.fst) ?hsafe]
  case hsafe =>
    intro ds hds
    obtain ⟨p, hp, rfl⟩ := List.mem_map.mp hds
    exact (h p hp).1
  exact replayAll_directRun l nowR []
    (fun p hp => ⟨(h p hp).2.1, (h p hp).2.2⟩)

/-- C4 witness: recording and reloading `SET k a` (all payloads LF-free
ASCII) rebuilds the keyspace of the direct run, replayed at a later time. -/
theorem c4_aol_replay_witness :
    replayAll 7 (aofLoad (aofBytes [[ascii "SET", [107], [97]]])) []
      = directRun [.set [107] [97] none] [] := by
  have h := c4_aol_replay [([ascii "SET", [107], [97]], .set [107] [97] none)] 7 ?h
  · exact h
  case h =>
    intro p hp
    rw [List.mem_singleton] at hp
    subst hp
    exact ⟨by decide, fun now => rfl, rfl⟩

end RustRedis
